import Mathlib

/-!
Verification of the reactive value graph and dependency-ordered execution
scheduler of the component library: the reference-counted `ResourceHandle`,
the `Volatile` reactive cell hierarchy, the `PartiallyOrderedSet` ordering
graph, and the renderer's registration/cache logic, shallowly embedded from
the TypeScript sources.
-/

namespace RH

/-!
## Resource handles (`motion/Volatile.ts`, class `ResourceHandle`)

A handle stores a reference `counter` (a JS number, modelled as `Int`: the
code never guards against decrements below zero) and its dispose callback.
We track how many times the dispose callback has fired in `disposed`.

```ts
public attach () { this.counter++ }
public detach () { this.counter--; if (!this.counter) this.dispose() }
```
-/

structure HandleState where
  counter : Int
  disposed : Nat
  deriving Repr, DecidableEq

inductive HOp where
  | attach
  | detach
  deriving Repr, DecidableEq

/-- One `attach`/`detach` call on a handle.  `detach` decrements the counter
and fires the dispose callback whenever the decremented counter is `0`
(JS falsiness of `this.counter`). -/
def hstep (s : HandleState) : HOp → HandleState
  | .attach => { s with counter := s.counter + 1 }
  | .detach =>
      let c := s.counter - 1
      if c = 0 then { counter := c, disposed := s.disposed + 1 }
      else { s with counter := c }

/-- Run a sequence of attach/detach calls. -/
def runOps (s : HandleState) (l : List HOp) : HandleState :=
  l.foldl hstep s

/-- A freshly created handle: refcount 0, dispose never fired. -/
def fresh : HandleState := { counter := 0, disposed := 0 }

def countAttach (l : List HOp) : Nat := l.count .attach
def countDetach (l : List HOp) : Nat := l.count .detach

/-- The prefix condition of the claim: no prefix contains more detaches than
attaches. -/
def prefixBalanced (l : List HOp) : Prop :=
  ∀ p q : List HOp, l = p ++ q → countDetach p ≤ countAttach p

instance (l : List HOp) : Decidable (prefixBalanced l) :=
  @decidable_of_decidable_of_iff
    (∀ n, n ∈ List.range (l.length + 1) →
      countDetach (l.take n) ≤ countAttach (l.take n))
    (prefixBalanced l)
    (List.decidableBAll _ _) (by
    constructor
    · intro h p q hpq
      have hp : p = l.take p.length := by
        subst hpq; simp
      have hlen : p.length ∈ List.range (l.length + 1) := by
        subst hpq
        simp [Nat.lt_succ_iff]
      rw [hp]
      exact h _ hlen
    · intro h n _
      exact h (l.take n) (l.drop n) (by simp))

theorem counter_runOps (s : HandleState) (l : List HOp) :
    (runOps s l).counter = s.counter + countAttach l - countDetach l := by
  induction l generalizing s with
  | nil => simp [runOps, countAttach, countDetach]
  | cons op t ih =>
    cases op with
    | attach =>
      simp only [runOps, List.foldl_cons] at *
      rw [ih]
      simp [hstep, countAttach, countDetach, List.count_cons]
      ring
    | detach =>
      simp only [runOps, List.foldl_cons] at *
      rw [ih]
      by_cases h : s.counter - 1 = 0 <;>
        simp [hstep, h, countAttach, countDetach, List.count_cons] <;> omega

/-- The strengthened prefix condition: every nonempty proper prefix holds
strictly fewer detaches than attaches (the refcount stays positive until the
final call). -/
def strictPrefixCond (l : List HOp) : Prop :=
  ∀ p q : List HOp, l = p ++ q → p ≠ [] → q ≠ [] → countDetach p < countAttach p

@[simp] theorem countAttach_nil : countAttach [] = 0 := rfl
@[simp] theorem countDetach_nil : countDetach [] = 0 := rfl
@[simp] theorem countAttach_cons_attach (l : List HOp) :
    countAttach (.attach :: l) = countAttach l + 1 := by
  simp [countAttach]
@[simp] theorem countAttach_cons_detach (l : List HOp) :
    countAttach (.detach :: l) = countAttach l := by
  simp [countAttach]
@[simp] theorem countDetach_cons_attach (l : List HOp) :
    countDetach (.attach :: l) = countDetach l := by
  simp [countDetach]
@[simp] theorem countDetach_cons_detach (l : List HOp) :
    countDetach (.detach :: l) = countDetach l + 1 := by
  simp [countDetach]
@[simp] theorem countAttach_append (l1 l2 : List HOp) :
    countAttach (l1 ++ l2) = countAttach l1 + countAttach l2 := by
  simp [countAttach]
@[simp] theorem countDetach_append (l1 l2 : List HOp) :
    countDetach (l1 ++ l2) = countDetach l1 + countDetach l2 := by
  simp [countDetach]
@[simp] theorem runOps_nil (s : HandleState) : runOps s [] = s := rfl
theorem runOps_cons (s : HandleState) (op : HOp) (l : List HOp) :
    runOps s (op :: l) = runOps (hstep s op) l := rfl

instance (l : List HOp) : Decidable (strictPrefixCond l) :=
  @decidable_of_decidable_of_iff
    (∀ n, n ∈ List.range (l.length + 1) → n ≠ 0 → n ≠ l.length →
      countDetach (l.take n) < countAttach (l.take n))
    (strictPrefixCond l)
    (List.decidableBAll _ _) (by
    constructor
    · intro h p q hpq hp hq
      have hplen : p = l.take p.length := by
        subst hpq; simp
      have hlt : p.length < l.length := by
        subst hpq
        cases q with
        | nil => exact absurd rfl hq
        | cons y q' => simp
      rw [hplen]
      exact h p.length (by simp; omega) (by
        intro h0
        exact hp (List.length_eq_zero.mp h0)) (by omega)
    · intro h n hn h0 hlen
      simp only [List.mem_range] at hn
      refine h (l.take n) (l.drop n) (by simp) ?_ ?_
      · intro htake
        have hh := congrArg List.length htake
        rw [List.length_take] at hh
        simp only [List.length_nil] at hh
        omega
      · intro hdrop
        have hh := congrArg List.length hdrop
        rw [List.length_drop] at hh
        simp only [List.length_nil] at hh
        omega)

theorem dispose_once_aux (t : List HOp) :
    ∀ s : HandleState, 0 < s.counter →
    s.counter + countAttach t - countDetach t = 0 →
    (∀ p q : List HOp, t = p ++ q → q ≠ [] →
      0 < s.counter + countAttach p - countDetach p) →
    (runOps s t).disposed = s.disposed + 1 ∧
    (∀ p q : List HOp, t = p ++ q → q ≠ [] →
      (runOps s p).disposed = s.disposed) := by
  induction t with
  | nil =>
    intro s hpos hbal _
    simp at hbal
    omega
  | cons op r ih =>
    intro s hpos hbal hpre
    cases op with
    | attach =>
      have hbal' : (s.counter + 1) + countAttach r - countDetach r = 0 := by
        simp at hbal
        omega
      have hpre' : ∀ p q : List HOp, r = p ++ q → q ≠ [] →
          0 < (s.counter + 1) + countAttach p - countDetach p := by
        intro p q hr hq
        have h := hpre (.attach :: p) q (by simp [hr]) hq
        simp at h
        omega
      obtain ⟨h1, h2⟩ := ih { s with counter := s.counter + 1 }
        (by show 0 < s.counter + 1; omega) hbal' hpre'
      have hrw : hstep s .attach = { s with counter := s.counter + 1 } := rfl
      refine ⟨by rw [runOps_cons, hrw]; exact h1, ?_⟩
      intro p q hl hq
      cases p with
      | nil => simp
      | cons x p' =>
        rw [List.cons_append] at hl
        injection hl with hx hr'
        rw [runOps_cons, ← hx, hrw]
        exact h2 p' q hr' hq
    | detach =>
      by_cases hc : s.counter - 1 = 0
      · -- the dispose fires here; the remaining suffix must be empty
        have hr : r = [] := by
          by_contra hne
          have h := hpre [.detach] r (by simp) hne
          simp at h
          omega
        subst hr
        refine ⟨by simp [runOps_cons, hstep, hc, runOps_nil], ?_⟩
        intro p q hl hq
        have hp : p = [] := by
          cases p with
          | nil => rfl
          | cons x p' =>
            exfalso
            rw [List.cons_append] at hl
            injection hl with _ hr'
            exact hq (List.append_eq_nil.mp hr'.symm).2
        subst hp
        simp
      · -- counter stays positive, recurse
        have hrne : r ≠ [] := by
          intro h
          subst h
          simp at hbal
          omega
        have hcpos : 0 < s.counter - 1 := by
          have h := hpre [.detach] r (by simp) hrne
          simp at h
          omega
        have hrw : hstep s .detach = { s with counter := s.counter - 1 } := by
          simp [hstep, hc]
        have hbal' : (s.counter - 1) + countAttach r - countDetach r = 0 := by
          simp at hbal
          omega
        have hpre' : ∀ p q : List HOp, r = p ++ q → q ≠ [] →
            0 < (s.counter - 1) + countAttach p - countDetach p := by
          intro p q hr hq
          have h := hpre (.detach :: p) q (by simp [hr]) hq
          simp at h
          omega
        obtain ⟨h1, h2⟩ := ih { s with counter := s.counter - 1 } hcpos hbal' hpre'
        refine ⟨by rw [runOps_cons, hrw]; exact h1, ?_⟩
        intro p q hl hq
        cases p with
        | nil => simp
        | cons x p' =>
          rw [List.cons_append] at hl
          injection hl with hx hr'
          rw [runOps_cons, ← hx, hrw]
          exact h2 p' q hr' hq

/-- C1 (counterexample): the claim fails as stated.  The interleaving
attach, detach, attach, detach has two attaches and two detaches and no
prefix with more detaches than attaches, yet the dispose callback fires
twice (once on each detach, since the counter returns to zero both times),
not "exactly once, on the Nth detach". -/
theorem C1_counterexample :
    prefixBalanced [.attach, .detach, .attach, .detach] ∧
    countAttach [HOp.attach, .detach, .attach, .detach] = 2 ∧
    countDetach [HOp.attach, .detach, .attach, .detach] = 2 ∧
    (runOps fresh [.attach, .detach, .attach, .detach]).disposed = 2 := by
  refine ⟨by decide, by decide, by decide, by decide⟩

/-- C1 (amended): for a fresh handle run through N attaches and N detaches
(N ≥ 1) such that every nonempty proper prefix has strictly fewer detaches
than attaches (i.e. the refcount stays positive until the final call), the
dispose callback fires exactly once, on the final operation, which is the
Nth detach: no proper prefix has fired it, the whole run fires it once, and
the run ends in a detach. -/
theorem C1_single_dispose (l : List HOp) (N : Nat)
    (hA : countAttach l = N) (hD : countDetach l = N) (hN : 1 ≤ N)
    (hstrict : strictPrefixCond l) :
    (runOps fresh l).disposed = 1 ∧
    (∀ p q : List HOp, l = p ++ q → q ≠ [] → (runOps fresh p).disposed = 0) ∧
    l.getLast? = some .detach := by
  -- the first operation must be an attach
  obtain ⟨x, r, hl⟩ : ∃ x r, l = x :: r := by
    cases l with
    | nil => simp at hA; omega
    | cons x r => exact ⟨x, r, rfl⟩
  have hx : x = HOp.attach := by
    cases x with
    | attach => rfl
    | detach =>
      exfalso
      cases r with
      | nil =>
        subst hl
        simp at hA
        omega
      | cons y r' =>
        have h := hstrict [.detach] (y :: r') (by simp [hl]) (by simp) (by simp)
        simp at h
  subst hx
  subst hl
  have h1 : hstep fresh .attach = { counter := 1, disposed := 0 } := rfl
  have hmain := dispose_once_aux r { counter := 1, disposed := 0 }
    (by norm_num)
    (by
      show (1 : Int) + countAttach r - countDetach r = 0
      simp at hA hD
      omega)
    (by
      intro p q hr hq
      show (0 : Int) < 1 + countAttach p - countDetach p
      rcases List.eq_nil_or_concat q with hq' | _
      · exact absurd hq' hq
      have h := hstrict (.attach :: p) q (by simp [hr]) (by simp) hq
      simp at h
      omega)
  obtain ⟨hfin, hpre⟩ := hmain
  refine ⟨by rw [runOps_cons, h1]; rw [hfin], ?_, ?_⟩
  · intro p q hl hq
    cases p with
    | nil => simp [fresh]
    | cons y p' =>
      rw [List.cons_append] at hl
      injection hl with hy hr'
      rw [runOps_cons, ← hy, h1]
      exact hpre p' q hr' hq
  · -- the run ends in a detach
    rcases List.eq_nil_or_concat (HOp.attach :: r) with h | ⟨l', z, hz⟩
    · simp at h
    rw [List.concat_eq_append] at hz
    rw [hz, List.getLast?_concat]
    cases z with
    | detach => rfl
    | attach =>
      exfalso
      cases l' with
      | nil =>
        have : countDetach (HOp.attach :: r) = 0 := by rw [hz]; decide
        omega
      | cons w l'' =>
        have hz' : HOp.attach :: r = (w :: l'') ++ [HOp.attach] := by
          rw [hz]
        have h := hstrict (w :: l'') [.attach] hz' (by simp) (by simp)
        rw [hz'] at hA hD
        rw [countAttach_append] at hA
        rw [countDetach_append] at hD
        simp at hA hD
        omega

/-- C1 (witness): the amended theorem at the concrete run attach, attach,
detach, detach (N = 2). -/
theorem C1_witness :
    (runOps fresh [.attach, .attach, .detach, .detach]).disposed = 1 ∧
    (runOps fresh [.attach, .attach, .detach]).disposed = 0 := by
  have h := C1_single_dispose [.attach, .attach, .detach, .detach] 2
    (by decide) (by decide) (by decide) (by decide)
  exact ⟨h.1, h.2.1 [.attach, .attach, .detach] [.detach] (by decide) (by decide)⟩

end RH

namespace PO

/-!
## Ordering graph (`PartiallyOrderedSet`)

Shallow embedding of the arena-style partially ordered key set.  Keys are
`Nat`.  A node's `upstream` set holds the keys declared *after* it by
`order` (the second arguments), its `downstream` set the mirror image: after
`order a b`, `b ∈ upstream a` and `a ∈ downstream b`.  The `nodes` map is
represented by the insertion-ordered key list `keys` together with the two
edge-set functions; `roots` is the insertion-ordered root set.  JS `Set`s
preserve insertion order, hence edge sets are insertion-ordered duplicate
free lists (`addIfAbsent` mirrors `Set.add`, `List.erase` mirrors
`Set.delete`).
-/

structure POS where
  keys : List Nat
  up : Nat → List Nat
  down : Nat → List Nat
  roots : List Nat

def fupd (f : Nat → List Nat) (k : Nat) (v : List Nat) : Nat → List Nat :=
  fun x => if x = k then v else f x

def addIfAbsent (l : List Nat) (x : Nat) : List Nat :=
  if x ∈ l then l else l ++ [x]

def empty : POS :=
  { keys := [], up := fun _ => [], down := fun _ => [], roots := [] }

/-- `has(element)`. -/
def hasKey (s : POS) (e : Nat) : Bool := e ∈ s.keys

/-- `add(element)`: no-op when present, otherwise inserts a fresh node and
records it as a root. -/
def add (s : POS) (e : Nat) : POS :=
  if e ∈ s.keys then s
  else
    { keys := s.keys ++ [e],
      up := fupd s.up e [],
      down := fupd s.down e [],
      roots := s.roots ++ [e] }

/-- `delete(element)`: removes the node, erasing it from the edge sets of its
upstream and downstream neighbours; the node entry and its root status are
dropped.  (Note: orphaned successors are *not* re-added to `roots`.) -/
def delete (s : POS) (e : Nat) : POS :=
  if e ∈ s.keys then
    { keys := s.keys.erase e,
      up := fun k =>
        if k = e then [] else if k ∈ s.down e then (s.up k).erase e else s.up k,
      down := fun k =>
        if k = e then [] else if k ∈ s.up e then (s.down k).erase e else s.down k,
      roots := s.roots.erase e }
  else s

/-- `hasCycle(root, nodes, nodesToVerify)`: depth-first search for `root`
along `upstream` edges, with no visited set.  The JS original recurses
unboundedly and can diverge on a cyclic graph; `fuel` bounds the recursion
depth, and `none` models a call that the original would never return from
(stack exhaustion).  The fold mirrors the short-circuiting `for` loop. -/
def hasCycleF (s : POS) : Nat → Nat → List Nat → Option Bool
  | 0, _, _ => none
  | fuel + 1, root, toVerify =>
    if root ∈ toVerify then some true
    else
      toVerify.foldl
        (fun acc x =>
          match acc with
          | some false => hasCycleF s fuel root (s.up x)
          | r => r)
        (some false)

/-- `order(a, b)`: membership guard, cycle check (depth bounded by the node
count, which suffices on acyclic graphs), then edge insertion and removal of
`b` from the roots.  `none` models non-termination of the cycle check. -/
def order (s : POS) (a b : Nat) : Option (Bool × POS) :=
  if a ∈ s.keys ∧ b ∈ s.keys then
    match hasCycleF s (s.keys.length + 1) a (s.up b) with
    | none => none
    | some true => some (false, s)
    | some false =>
        some (true,
          { s with
            up := fupd s.up a (addIfAbsent (s.up a) b),
            down := fupd s.down b (addIfAbsent (s.down b) a),
            roots := s.roots.erase b })
  else some (false, s)

/-- State of the Kahn-style iterator: the `intermediateRoots` set, the
`downstreamCounters` map and the sequence emitted so far. -/
structure KState where
  frontier : List Nat
  counters : Nat → Option Int
  out : List Nat

def cupd (f : Nat → Option Int) (k : Nat) (v : Int) : Nat → Option Int :=
  fun x => if x = k then some v else f x

/-- One iteration of the `while (intermediateRoots.size)` loop: emit the
first element of the frontier, then for each of its upstream keys initialise
the counter from `downstream.size` if absent, decrement it, and enqueue the
key when the counter reaches zero; finally remove the emitted element. -/
def kstep (s : POS) (k : KState) : KState :=
  match k.frontier with
  | [] => k
  | e :: rest =>
    let step := (s.up e).foldl
      (fun (p : (Nat → Option Int) × List Nat) u =>
        let c0 : Int :=
          match p.1 u with
          | some c => c
          | none => ((s.down u).length : Int)
        let c := c0 - 1
        (cupd p.1 u c, if c = 0 then addIfAbsent p.2 u else p.2))
      (k.counters, e :: rest)
    { frontier := step.2.erase e, counters := step.1, out := k.out ++ [e] }

def krun (s : POS) : Nat → KState → KState
  | 0, k => k
  | fuel + 1, k =>
    match k.frontier with
    | [] => k
    | _ :: _ => krun s fuel (kstep s k)

def initK (s : POS) : KState :=
  { frontier := s.roots, counters := fun _ => none, out := [] }

/-- `sortedValues()` on the keyless variant: the full sequence produced by
the iterator.  Every loop iteration emits one element and each key's counter
reaches zero at most once, so the loop runs at most `|roots| + |keys|`
times; that fuel is always sufficient. -/
def sortedValues (s : POS) : List Nat :=
  (krun s (s.roots.length + s.keys.length) (initK s)).out

/-- Well-formedness of a graph state: duplicate-free key/root/edge lists,
roots are predecessor-free members, and the two edge sets mirror each other
inside the key set. -/
def WF (s : POS) : Prop :=
  s.keys.Nodup ∧ s.roots.Nodup ∧
  (∀ r ∈ s.roots, r ∈ s.keys ∧ s.down r = []) ∧
  (∀ k ∈ s.keys,
    (s.up k).Nodup ∧ (s.down k).Nodup ∧
    (∀ u ∈ s.up k, u ∈ s.keys ∧ k ∈ s.down u) ∧
    (∀ d ∈ s.down k, d ∈ s.keys ∧ k ∈ s.up d))

instance (s : POS) : Decidable (WF s) := by
  unfold WF
  infer_instance

/-- Reachability along `upstream` edges in exactly `n` steps. -/
inductive ReachN (s : POS) : Nat → Nat → Nat → Prop
  | refl (x : Nat) : ReachN s 0 x x
  | step {n x y z : Nat} : y ∈ s.up x → ReachN s n y z → ReachN s (n + 1) x z

/-- Reflexive-transitive reachability along `upstream` edges. -/
def Reach (s : POS) (x y : Nat) : Prop := ∃ n, ReachN s n x y

/-- "`b` transitively precedes `a`": at least one `upstream` step leads from
`b` to `a`. -/
def Precedes (s : POS) (b a : Nat) : Prop := ∃ x ∈ s.up b, Reach s x a

end PO

namespace PO

/-- The one-key state used for the C2 failing input. -/
def c2s0 : POS := add empty 0

/-- The state produced by `order(0, 0)` on `c2s0`. -/
def c2s1 : POS := ((order c2s0 0 0).getD (false, empty)).2

/-- C2: at the failing input — a set holding the single key `0` — the call
`order(0, 0)` returns success and installs the self-edge `0 → 0`: the graph
is now cyclic (`0` reaches itself in one step) even though the operation
reported success, contradicting the claim (and the code's own documentation)
that an order call which would create a cycle fails and leaves the graph
unchanged.  The self-check misses `a = b` because the membership test runs
against `b`'s upstream set before the edge is inserted. -/
theorem C2_order_accepts_self_loop :
    (order c2s0 0 0).map Prod.fst = some true ∧
    0 ∈ c2s1.up 0 ∧ ReachN c2s1 1 0 0 ∧ c2s1.roots = [] := by
  refine ⟨by decide, by decide, ?_, by decide⟩
  exact .step (by decide) (.refl 0)

/-- Two keys `0, 1` with the accepted constraint `order(0, 1)`. -/
def c3s1 : POS := ((order (add (add empty 0) 1) 0 1).getD (false, empty)).2

/-- The C3 failing state: key `0` has been deleted again. -/
def c3s2 : POS := delete c3s1 0

/-- C3: at the failing input — keys `0, 1`, accepted `order(0, 1)`, then
`delete(0)` — the key `1` is still a member of the set and has no remaining
edges, yet the sorted enumeration is empty: `delete` severs the edges of the
removed key but never restores its orphaned successors to the root set, so
`1` is unreachable for the Kahn iteration and is silently dropped from every
subsequent enumeration, contradicting the claim that every remaining key is
still enumerated. -/
theorem C3_delete_loses_successor :
    (order (add (add empty 0) 1) 0 1).map Prod.fst = some true ∧
    hasKey c3s2 1 = true ∧ c3s2.up 1 = [] ∧ c3s2.down 1 = [] ∧
    sortedValues c3s2 = [] := by
  refine ⟨by decide, by decide, by decide, by decide, by decide⟩

end PO

namespace PO

/-- The edge relation followed by `hasCycle`: one `upstream` step. -/
def upRel (s : POS) (u v : Nat) : Prop := v ∈ s.up u

/-- The loop body of `hasCycle`'s `for` iteration. -/
def hcBody (s : POS) (fuel root : Nat) (acc : Option Bool) (x : Nat) :
    Option Bool :=
  match acc with
  | some false => hasCycleF s fuel root (s.up x)
  | r => r

theorem hasCycleF_succ (s : POS) (fuel root : Nat) (toVerify : List Nat) :
    hasCycleF s (fuel + 1) root toVerify =
      if root ∈ toVerify then some true
      else toVerify.foldl (hcBody s fuel root) (some false) := by
  rfl

theorem hcFold_const (s : POS) (fuel root : Nat) (l : List Nat)
    (acc : Option Bool) (h : acc ≠ some false) :
    l.foldl (hcBody s fuel root) acc = acc := by
  induction l with
  | nil => rfl
  | cons x t ih =>
    have hb : hcBody s fuel root acc x = acc := by
      cases acc with
      | none => rfl
      | some b => cases b with
        | false => exact absurd rfl h
        | true => rfl
    rw [List.foldl_cons, hb, ih]

theorem hcFold_false (s : POS) (fuel root : Nat) (l : List Nat)
    (h : l.foldl (hcBody s fuel root) (some false) = some false) :
    ∀ x ∈ l, hasCycleF s fuel root (s.up x) = some false := by
  induction l with
  | nil => intro x hx; cases hx
  | cons y t ih =>
    intro x hx
    rw [List.foldl_cons] at h
    have hy : hcBody s fuel root (some false) y =
        hasCycleF s fuel root (s.up y) := rfl
    rw [hy] at h
    by_cases hcall : hasCycleF s fuel root (s.up y) = some false
    · rw [hcall] at h
      rcases List.mem_cons.mp hx with rfl | hx'
      · exact hcall
      · exact ih h x hx'
    · rw [hcFold_const s fuel root t _ hcall] at h
      exact absurd h hcall

theorem hcFold_exists (s : POS) (fuel root : Nat) (l : List Nat)
    (r : Option Bool) (hr : r ≠ some false)
    (h : l.foldl (hcBody s fuel root) (some false) = r) :
    ∃ x ∈ l, hasCycleF s fuel root (s.up x) = r := by
  induction l with
  | nil => exact absurd h.symm hr
  | cons y t ih =>
    rw [List.foldl_cons] at h
    have hy : hcBody s fuel root (some false) y =
        hasCycleF s fuel root (s.up y) := rfl
    rw [hy] at h
    by_cases hcall : hasCycleF s fuel root (s.up y) = some false
    · rw [hcall] at h
      obtain ⟨x, hx, hx2⟩ := ih h
      exact ⟨x, List.mem_cons_of_mem y hx, hx2⟩
    · rw [hcFold_const s fuel root t _ hcall] at h
      exact ⟨y, List.mem_cons_self y t, h⟩

/-- Soundness of `hasCycle` returning `true`: the root really is reachable
from the verified frontier. -/
theorem hasCycle_true_reach (s : POS) :
    ∀ (fuel : Nat) (fr : List Nat) (root : Nat),
      hasCycleF s fuel root fr = some true →
      ∃ x ∈ fr, Reach s x root := by
  intro fuel
  induction fuel with
  | zero => intro fr root h; cases h
  | succ fuel ih =>
    intro fr root h
    rw [hasCycleF_succ] at h
    by_cases hmem : root ∈ fr
    · exact ⟨root, hmem, 0, .refl root⟩
    · rw [if_neg hmem] at h
      obtain ⟨x, hx, hcall⟩ := hcFold_exists s fuel root fr (some true)
        (by simp) h
      obtain ⟨y, hy, n, hr⟩ := ih (s.up x) root hcall
      exact ⟨x, hx, n + 1, .step hy hr⟩

/-- Soundness of `hasCycle` returning `false`: termination with `false`
means the whole frontier was searched, so the root is unreachable from it. -/
theorem hasCycle_false_no_reach (s : POS) :
    ∀ (fuel : Nat) (fr : List Nat) (root : Nat),
      hasCycleF s fuel root fr = some false →
      ∀ x ∈ fr, ¬ Reach s x root := by
  intro fuel
  induction fuel with
  | zero => intro fr root h; cases h
  | succ fuel ih =>
    intro fr root h x hx hreach
    rw [hasCycleF_succ] at h
    by_cases hmem : root ∈ fr
    · rw [if_pos hmem] at h; cases h
    · rw [if_neg hmem] at h
      obtain ⟨n, hr⟩ := hreach
      cases hr with
      | refl => exact hmem (by assumption)
      | step hy hr' =>
        exact ih (s.up x) root (hcFold_false s fuel root fr h x hx) _ hy ⟨_, hr'⟩

/-- A `none` result (the JS search still recursing at that depth) yields a
chain of `fuel` upstream edges starting inside the frontier. -/
theorem hasCycle_none_chain (s : POS) :
    ∀ (fuel : Nat) (fr : List Nat) (root : Nat),
      hasCycleF s (fuel + 1) root fr = none →
      ∃ x ∈ fr, ∃ l, List.Chain (upRel s) x l ∧ l.length = fuel := by
  intro fuel
  induction fuel with
  | zero =>
    intro fr root h
    rw [hasCycleF_succ] at h
    by_cases hmem : root ∈ fr
    · rw [if_pos hmem] at h; cases h
    · rw [if_neg hmem] at h
      obtain ⟨x, hx, _⟩ := hcFold_exists s 0 root fr none (by simp) h
      exact ⟨x, hx, [], List.Chain.nil, rfl⟩
  | succ fuel ih =>
    intro fr root h
    rw [hasCycleF_succ] at h
    by_cases hmem : root ∈ fr
    · rw [if_pos hmem] at h; cases h
    · rw [if_neg hmem] at h
      obtain ⟨x, hx, hcall⟩ := hcFold_exists s (fuel + 1) root fr none
        (by simp) h
      obtain ⟨y, hy, l, hch, hlen⟩ := ih (s.up x) root hcall
      exact ⟨x, hx, y :: l, List.Chain.cons hy hch, by simp [hlen]⟩

end PO

namespace PO

/-- One round of closure expansion: a set together with the upstream
neighbours of its members. -/
def expand (s : POS) (S : List Nat) : List Nat :=
  S ++ (S.flatMap s.up).filter (fun v => decide (v ∉ S))

theorem subset_expand (s : POS) (S : List Nat) : S ⊆ expand s S := by
  intro z hz
  exact List.mem_append_left _ hz

theorem up_subset_expand (s : POS) {S : List Nat} {x : Nat} (hx : x ∈ S) :
    s.up x ⊆ expand s S := by
  intro z hz
  by_cases hzS : z ∈ S
  · exact List.mem_append_left _ hzS
  · refine List.mem_append_right _ ?_
    rw [List.mem_filter]
    exact ⟨List.mem_flatMap.mpr ⟨x, hx, hz⟩, by simpa using hzS⟩

theorem expand_mono (s : POS) {A B : List Nat} (h : A ⊆ B) :
    expand s A ⊆ expand s B := by
  intro z hz
  rcases List.mem_append.mp hz with hzA | hzf
  · exact subset_expand s B (h hzA)
  · rw [List.mem_filter] at hzf
    obtain ⟨x, hxA, hzx⟩ := List.mem_flatMap.mp hzf.1
    exact up_subset_expand s (h hxA) hzx

/-- Iterated closure expansion. -/
def iterN (s : POS) : Nat → List Nat → List Nat
  | 0, S => S
  | n + 1, S => iterN s n (expand s S)

theorem iterN_mono_subset (s : POS) :
    ∀ (n : Nat) {A B : List Nat}, A ⊆ B → iterN s n A ⊆ iterN s n B := by
  intro n
  induction n with
  | zero => intro A B h; exact h
  | succ n ih => intro A B h; exact ih (expand_mono s h)

theorem iterN_fuel_step (s : POS) (n : Nat) (S : List Nat) :
    iterN s n S ⊆ iterN s (n + 1) S := by
  show iterN s n S ⊆ iterN s n (expand s S)
  exact iterN_mono_subset s n (subset_expand s S)

theorem iterN_fuel_mono (s : POS) {n m : Nat} (h : n ≤ m) (S : List Nat) :
    iterN s n S ⊆ iterN s m S := by
  induction m with
  | zero =>
    have : n = 0 := Nat.le_zero.mp h
    subst this
    exact fun z hz => hz
  | succ m ih =>
    rcases Nat.lt_or_ge n (m + 1) with hlt | hge
    · exact fun z hz =>
        iterN_fuel_step s m S (ih (Nat.lt_succ_iff.mp hlt) hz)
    · have : n = m + 1 := Nat.le_antisymm h hge
      subst this
      exact fun z hz => hz

/-- All keys reachable from `x` along at least one upstream edge, computed
by `|keys|` rounds of expansion starting from `x`'s upstream set. -/
def closureFrom (s : POS) (x : Nat) : List Nat :=
  iterN s s.keys.length (s.up x)

/-- Decidable acyclicity: no key reaches itself through upstream edges. -/
def Acyclic (s : POS) : Prop := ∀ x ∈ s.keys, x ∉ closureFrom s x

instance (s : POS) : Decidable (Acyclic s) := by
  unfold Acyclic
  infer_instance

theorem chain_concat_closure (s : POS) :
    ∀ (m : List Nat) (x y : Nat), List.Chain (upRel s) x (m ++ [y]) →
      y ∈ iterN s m.length (s.up x) := by
  intro m
  induction m with
  | nil =>
    intro x y h
    rw [List.nil_append, List.chain_singleton] at h
    exact h
  | cons c m' ih =>
    intro x y h
    rw [List.cons_append, List.chain_cons] at h
    obtain ⟨hxc, hch⟩ := h
    have hsub : iterN s m'.length (s.up c) ⊆ iterN s m'.length (expand s (s.up x)) :=
      iterN_mono_subset s m'.length (up_subset_expand s hxc)
    have : y ∈ iterN s m'.length (s.up c) := ih c y hch
    exact hsub this

theorem chain_mem_keys (s : POS) (hWF : WF s) :
    ∀ (l : List Nat) (x : Nat), x ∈ s.keys → List.Chain (upRel s) x l →
      ∀ v ∈ l, v ∈ s.keys := by
  intro l
  induction l with
  | nil => intro x _ _ v hv; cases hv
  | cons y t ih =>
    intro x hx hch v hv
    rw [List.chain_cons] at hch
    obtain ⟨hxy, hch'⟩ := hch
    have hy : y ∈ s.keys := ((hWF.2.2.2 x hx).2.2.1 y hxy).1
    rcases List.mem_cons.mp hv with rfl | hv'
    · exact hy
    · exact ih y hy hch' v hv'

theorem exists_dup_split :
    ∀ l : List Nat, ¬ l.Nodup →
      ∃ a l1 l2 l3, l = l1 ++ a :: l2 ++ a :: l3 := by
  intro l
  induction l with
  | nil => intro h; exact absurd List.nodup_nil h
  | cons x t ih =>
    intro h
    rw [List.nodup_cons] at h
    push_neg at h
    by_cases hx : x ∈ t
    · obtain ⟨t1, t2, rfl⟩ := List.append_of_mem hx
      exact ⟨x, [], t1, t2, by simp⟩
    · obtain ⟨a, l1, l2, l3, rfl⟩ := ih (h hx)
      exact ⟨a, x :: l1, l2, l3, by simp⟩

theorem chain_cycle_of_dup (s : POS) {x : Nat} {l : List Nat}
    (hch : List.Chain (upRel s) x l) (hdup : ¬ (x :: l).Nodup) :
    ∃ a m, List.Chain (upRel s) a (m ++ [a]) ∧ m.length ≤ l.length ∧
      a ∈ x :: l := by
  obtain ⟨a, l1, l2, l3, hsplit⟩ := exists_dup_split (x :: l) hdup
  cases l1 with
  | nil =>
    rw [List.nil_append] at hsplit
    injection hsplit with hxa hl
    subst hxa
    simp only [List.append_eq] at hl
    rw [hl] at hch
    rw [List.chain_split] at hch
    refine ⟨x, l2, hch.1, ?_, List.mem_cons_self x l⟩
    rw [hl]
    simp
  | cons w l1' =>
    rw [List.cons_append] at hsplit
    injection hsplit with hxw hl
    simp only [List.append_eq] at hl
    rw [hl] at hch
    rw [List.chain_split] at hch
    have h1 := hch.1
    rw [List.append_assoc] at h1
    simp only [List.cons_append] at h1
    rw [List.chain_split] at h1
    refine ⟨a, l2, h1.2, ?_, ?_⟩
    · rw [hl]
      simp
      omega
    · refine List.mem_cons_of_mem x ?_
      rw [hl]
      simp

end PO

namespace PO

/-- On a well-formed acyclic graph, depth `|keys| + 1` is enough for the
cycle search to terminate: a deeper search would trace a chain longer than
the key count, forcing a repeated key and hence a cycle. -/
theorem hasCycle_fuel_adequate (s : POS) (hWF : WF s) (hAc : Acyclic s)
    (fr : List Nat) (hfr : ∀ x ∈ fr, x ∈ s.keys) (root : Nat) :
    hasCycleF s (s.keys.length + 1) root fr ≠ none := by
  intro hnone
  obtain ⟨x, hx, l, hch, hlen⟩ := hasCycle_none_chain s s.keys.length fr root hnone
  have hxk : x ∈ s.keys := hfr x hx
  have hlk : ∀ v ∈ l, v ∈ s.keys := chain_mem_keys s hWF l x hxk hch
  have hall : ∀ v ∈ x :: l, v ∈ s.keys := by
    intro v hv
    rcases List.mem_cons.mp hv with rfl | hv'
    · exact hxk
    · exact hlk v hv'
  have hdup : ¬ (x :: l).Nodup := by
    intro hnd
    have hsub : (x :: l) ⊆ s.keys := hall
    have := (List.Nodup.subperm hnd hsub).length_le
    rw [List.length_cons, hlen] at this
    omega
  obtain ⟨a, m, hcyc, hmlen, hmem⟩ := chain_cycle_of_dup s hch hdup
  have hak : a ∈ s.keys := hall a hmem
  have hclos : a ∈ iterN s m.length (s.up a) := chain_concat_closure s m a a hcyc
  have : a ∈ closureFrom s a := by
    refine iterN_fuel_mono s ?_ (s.up a) hclos
    omega
  exact hAc a hak this

/-- C5 (amended): on a well-formed, acyclic graph (no reflexive constraint
ever accepted), calling `order(a, b)` when `b` already transitively precedes
`a` terminates, returns the failure value `false`, and leaves the state —
and hence every subsequent `sortedValues()` enumeration — exactly as it was.
As literally stated the claim also covers graphs already poisoned by an
accepted self-loop, where the pre-insertion cycle search recurses forever
(see the counterexample). -/
theorem C5_cycle_rejection_atomic (s : POS) (a b : Nat) (hWF : WF s)
    (hAc : Acyclic s) (ha : a ∈ s.keys) (hb : b ∈ s.keys)
    (hprec : Precedes s b a) :
    order s a b = some (false, s) := by
  unfold order
  rw [if_pos ⟨ha, hb⟩]
  have hfr : ∀ x ∈ s.up b, x ∈ s.keys := by
    intro x hx
    exact ((hWF.2.2.2 b hb).2.2.1 x hx).1
  cases hcyc : hasCycleF s (s.keys.length + 1) a (s.up b) with
  | none => exact absurd hcyc (hasCycle_fuel_adequate s hWF hAc (s.up b) hfr a)
  | some c =>
    cases c with
    | true => rfl
    | false =>
      exfalso
      obtain ⟨x, hx, hreach⟩ := hprec
      exact hasCycle_false_no_reach s (s.keys.length + 1) (s.up b) a hcyc x hx hreach

/-- C5 (witness): two keys with the accepted constraint `order(0, 1)`; the
reverse call `order(1, 0)` is atomically rejected. -/
theorem C5_witness :
    WF c3s1 ∧ Acyclic c3s1 ∧ Precedes c3s1 0 1 ∧
    order c3s1 1 0 = some (false, c3s1) :=
  ⟨by decide, by decide, ⟨1, by decide, 0, .refl 1⟩,
    C5_cycle_rejection_atomic c3s1 1 0 (by decide) (by decide)
      (by decide) (by decide) ⟨1, by decide, 0, .refl 1⟩⟩

/-- The poisoned state for the C5 counterexample: keys `0..3`, accepted
constraints `order(0,1)`, `order(0,2)`, `order(2,3)`, and the illegally
accepted reflexive constraint `order(1,1)` (see C2). -/
def applyOrder (s : POS) (a b : Nat) : POS := ((order s a b).getD (false, s)).2

def c5s : POS :=
  applyOrder
    (applyOrder
      (applyOrder
        (applyOrder (add (add (add (add empty 0) 1) 2) 3) 0 1)
        0 2)
      2 3)
    1 1

/-- The cycle search loops forever: at every depth the result is still
"not yet returned". -/
def hasCycleDiverges (s : POS) (root : Nat) (fr : List Nat) : Prop :=
  ∀ fuelAmount : Nat, hasCycleF s fuelAmount root fr = none

theorem c5_div_inner : hasCycleDiverges c5s 3 (c5s.up 1) := by
  intro f
  induction f with
  | zero => rfl
  | succ f ih =>
    have hup : c5s.up 1 = [1] := by decide
    rw [hasCycleF_succ, hup]
    rw [if_neg (by decide)]
    show hcBody c5s f 3 (some false) 1 = none
    show hasCycleF c5s f 3 (c5s.up 1) = none
    exact ih

/-- C5 (counterexample): in the poisoned state `c5s` the key `0`
transitively precedes `3` (via `0 → 2 → 3`), so by the claim `order(3, 0)`
must return a failure value and never throw.  Instead the pre-insertion
cycle search wanders into the self-loop at `1` and recurses forever — the JS
original dies with a stack overflow, i.e. it throws rather than returning
failure. -/
theorem C5_counterexample :
    Precedes c5s 0 3 ∧ hasCycleDiverges c5s 3 (c5s.up 0) ∧
    order c5s 3 0 = none := by
  have hdiv : hasCycleDiverges c5s 3 (c5s.up 0) := by
    intro f
    cases f with
    | zero => rfl
    | succ f =>
      have hup : c5s.up 0 = [1, 2] := by decide
      rw [hasCycleF_succ, hup]
      rw [if_neg (by decide)]
      show List.foldl (hcBody c5s f 3) (some false) [1, 2] = none
      have h1 : hcBody c5s f 3 (some false) 1 = none := c5_div_inner f
      rw [List.foldl_cons, h1]
      rw [List.foldl_cons]
      rfl
  refine ⟨⟨2, by decide, 1, .step (by decide) (.refl 3)⟩, hdiv, ?_⟩
  unfold order
  rw [if_pos ⟨by decide, by decide⟩]
  rw [hdiv (c5s.keys.length + 1)]

end PO

namespace PO

/-- The counter value the iterator maintains for a key `u`: its predecessor
count minus the number of its predecessors already emitted. -/
def cntE (s : POS) (out : List Nat) (u : Nat) : Int :=
  ((s.down u).length : Int) -
    (((s.down u).filter (fun d => decide (d ∈ out))).length : Int)

theorem filter_mem_append_same {e : Nat} {out : List Nat} :
    ∀ l : List Nat, e ∉ l →
      l.filter (fun d => decide (d ∈ out ++ [e])) =
        l.filter (fun d => decide (d ∈ out)) := by
  intro l hel
  refine List.filter_congr ?_
  intro d hd
  have hde : d ≠ e := fun h => hel (h ▸ hd)
  simp [List.mem_append, hde]

theorem filter_mem_append_succ {e : Nat} {out : List Nat} (heOut : e ∉ out) :
    ∀ l : List Nat, l.Nodup → e ∈ l →
      (l.filter (fun d => decide (d ∈ out ++ [e]))).length =
        (l.filter (fun d => decide (d ∈ out))).length + 1 := by
  intro l
  induction l with
  | nil => intro _ h; cases h
  | cons d t ih =>
    intro hnd hel
    rw [List.nodup_cons] at hnd
    by_cases hde : d = e
    · subst hde
      rw [List.filter_cons, List.filter_cons, filter_mem_append_same t hnd.1]
      simp [heOut]
    · have het : e ∈ t := by
        rcases List.mem_cons.mp hel with h | h
        · exact absurd h.symm hde
        · exact h
      have hcond : (decide (d ∈ out ++ [e])) = (decide (d ∈ out)) := by
        simp [List.mem_append, hde]
      rw [List.filter_cons, List.filter_cons, hcond]
      have hlen := ih hnd.2 het
      cases hdec : decide (d ∈ out) with
      | true =>
        rw [if_pos rfl, if_pos rfl]
        simp only [List.length_cons]
        omega
      | false =>
        rw [if_neg (by simp), if_neg (by simp)]
        omega

theorem cntE_append {s : POS} {e u : Nat} {out : List Nat}
    (heOut : e ∉ out) (hnd : (s.down u).Nodup) (hel : e ∈ s.down u) :
    cntE s (out ++ [e]) u = cntE s out u - 1 := by
  unfold cntE
  rw [filter_mem_append_succ heOut (s.down u) hnd hel]
  push_cast
  ring

theorem cntE_append_of_not_mem {s : POS} {e u : Nat} {out : List Nat}
    (hel : e ∉ s.down u) :
    cntE s (out ++ [e]) u = cntE s out u := by
  unfold cntE
  rw [filter_mem_append_same (s.down u) hel]

/-- The invariant carried through the Kahn iteration: the emitted list is a
duplicate-free list of keys in which every element follows all of its
predecessors; the frontier is a duplicate-free list of unemitted keys all of
whose predecessors are emitted; the counters record, for exactly the keys
with at least one emitted predecessor, the number of predecessors still
unemitted. -/
structure KInv (s : POS) (k : KState) : Prop where
  outNodup : k.out.Nodup
  outKeys : ∀ x ∈ k.out, x ∈ s.keys
  outPrefix : ∀ p1 x p2, k.out = p1 ++ x :: p2 → ∀ d ∈ s.down x, d ∈ p1
  frNodup : k.frontier.Nodup
  frKeys : ∀ x ∈ k.frontier, x ∈ s.keys
  frOut : ∀ x ∈ k.frontier, x ∉ k.out
  frJust : ∀ x ∈ k.frontier, ∀ d ∈ s.down x, d ∈ k.out
  cntDom : ∀ u ∈ s.keys, (k.counters u ≠ none ↔ ∃ d ∈ s.down u, d ∈ k.out)
  cntVal : ∀ u ∈ s.keys, ∀ c, k.counters u = some c → c = cntE s k.out u

/-- The current counter of `u`, initialised from `downstream.size` when the
counters map holds no entry yet. -/
def cInit (s : POS) (f : Nat → Option Int) (u : Nat) : Int :=
  match f u with
  | some c => c
  | none => ((s.down u).length : Int)

/-- The body of the per-upstream-key fold inside the iterator loop. -/
def kbody (s : POS) (p : (Nat → Option Int) × List Nat) (u : Nat) :
    (Nat → Option Int) × List Nat :=
  (cupd p.1 u (cInit s p.1 u - 1),
    if cInit s p.1 u - 1 = 0 then addIfAbsent p.2 u else p.2)

theorem kstep_nil (s : POS) (k : KState) (h : k.frontier = []) :
    kstep s k = k := by
  unfold kstep
  rw [h]

theorem kstep_cons (s : POS) (k : KState) (e : Nat) (rest : List Nat)
    (h : k.frontier = e :: rest) :
    kstep s k =
      { frontier := ((s.up e).foldl (kbody s) (k.counters, e :: rest)).2.erase e,
        counters := ((s.up e).foldl (kbody s) (k.counters, e :: rest)).1,
        out := k.out ++ [e] } := by
  unfold kstep
  rw [h]
  rfl

theorem append_singleton_decomp {α : Type} (l p1 p2 : List α) (x e : α)
    (h : l ++ [e] = p1 ++ x :: p2) :
    (p2 = [] ∧ x = e ∧ p1 = l) ∨
    (∃ p2', p2 = p2' ++ [e] ∧ l = p1 ++ x :: p2') := by
  rcases List.eq_nil_or_concat p2 with rfl | ⟨p2', y, rfl⟩
  · left
    obtain ⟨h1, h2⟩ := List.append_inj' h (by simp)
    injection h2 with h2 _
    exact ⟨rfl, h2.symm, h1.symm⟩
  · right
    rw [List.concat_eq_append] at h
    rw [show p1 ++ x :: (p2' ++ [y]) = (p1 ++ x :: p2') ++ [y] from by simp] at h
    obtain ⟨h1, h2⟩ := List.append_inj' h (by simp)
    injection h2 with h2 _
    exact ⟨p2', by rw [List.concat_eq_append, h2], h1⟩

end PO

namespace PO

/-- Invariant of the upstream fold while emitting `e` after output `out`:
processed keys (`done`) hold their refreshed counters, all others are
untouched, and the working frontier only ever gains unemitted keys whose
predecessors are all emitted. -/
structure FInv (s : POS) (e : Nat) (out : List Nat) (orig : Nat → Option Int)
    (done : List Nat) (p : (Nat → Option Int) × List Nat) : Prop where
  cntDone : ∀ u ∈ done, p.1 u = some (cntE s (out ++ [e]) u)
  cntOther : ∀ u, u ∉ done → p.1 u = orig u
  frKeys : ∀ x ∈ p.2, x ∈ s.keys
  frNodup : p.2.Nodup
  frNew : ∀ x ∈ p.2, x = e ∨ (x ∉ out ++ [e] ∧ ∀ d ∈ s.down x, d ∈ out ++ [e])

theorem kfold_inv (s : POS) (hWF : WF s) (e : Nat) (he : e ∈ s.keys)
    (out : List Nat) (heOut : e ∉ out)
    (houtPrefix : ∀ p1 x p2, out = p1 ++ x :: p2 → ∀ d ∈ s.down x, d ∈ p1)
    (hJustE : ∀ d ∈ s.down e, d ∈ out)
    (orig : Nat → Option Int)
    (hdom : ∀ u ∈ s.keys, (orig u ≠ none ↔ ∃ d ∈ s.down u, d ∈ out))
    (hval : ∀ u ∈ s.keys, ∀ c, orig u = some c → c = cntE s out u) :
    ∀ (ups done : List Nat) (p : (Nat → Option Int) × List Nat),
      (∀ u ∈ ups, u ∈ s.up e) → (done ++ ups).Nodup →
      FInv s e out orig done p →
      FInv s e out orig (done ++ ups) (ups.foldl (kbody s) p) := by
  intro ups
  induction ups with
  | nil =>
    intro done p _ _ hF
    simpa using hF
  | cons u t ih =>
    intro done p hups hnd hF
    have hu_up : u ∈ s.up e := hups u (List.mem_cons_self u t)
    have hWFe := hWF.2.2.2 e he
    have huk : u ∈ s.keys := (hWFe.2.2.1 u hu_up).1
    have hed : e ∈ s.down u := (hWFe.2.2.1 u hu_up).2
    have hu_done : u ∉ done := by
      intro hcontra
      exact (List.disjoint_of_nodup_append hnd) hcontra (List.mem_cons_self u t)
    have hndU : (s.down u).Nodup := (hWF.2.2.2 u huk).2.1
    -- the counter read by the body is the pre-step expected value
    have hc0 : cInit s p.1 u = cntE s out u := by
      unfold cInit
      rw [hF.cntOther u hu_done]
      cases horig : orig u with
      | some c => exact hval u huk c horig
      | none =>
        have hnone : ¬ ∃ d ∈ s.down u, d ∈ out := by
          intro hex
          exact ((hdom u huk).mpr hex) horig
        have hfil : (s.down u).filter (fun d => decide (d ∈ out)) = [] := by
          rw [List.filter_eq_nil_iff]
          intro d hd
          simp only [decide_eq_true_eq]
          exact fun hdo => hnone ⟨d, hd, hdo⟩
        show ((s.down u).length : Int) = cntE s out u
        unfold cntE
        rw [hfil]
        simp
    have hcE : cntE s out u - 1 = cntE s (out ++ [e]) u :=
      (cntE_append heOut hndU hed).symm
    have hkb : kbody s p u =
        (cupd p.1 u (cntE s (out ++ [e]) u),
          if cntE s out u - 1 = 0 then addIfAbsent p.2 u else p.2) := by
      unfold kbody
      rw [hc0, hcE]
    -- the new fold state satisfies the invariant for done ++ [u]
    have hF' : FInv s e out orig (done ++ [u]) (kbody s p u) := by
      rw [hkb]
      refine ⟨?_, ?_, ?_, ?_, ?_⟩
      · intro w hw
        rcases List.mem_append.mp hw with hw | hw
        · have hwu : w ≠ u := fun h => hu_done (h ▸ hw)
          show cupd p.1 u (cntE s (out ++ [e]) u) w = _
          unfold cupd
          rw [if_neg hwu]
          exact hF.cntDone w hw
        · have hwu : w = u := by simpa using hw
          subst hwu
          show cupd p.1 w (cntE s (out ++ [e]) w) w = _
          unfold cupd
          rw [if_pos rfl]
      · intro w hw
        have hwu : w ≠ u := fun h => hw (h ▸ List.mem_append_right done (by simp))
        have hwd : w ∉ done := fun h => hw (List.mem_append_left _ h)
        show cupd p.1 u (cntE s (out ++ [e]) u) w = orig w
        unfold cupd
        rw [if_neg hwu]
        exact hF.cntOther w hwd
      all_goals (by_cases hzero : cntE s out u - 1 = 0)
      · -- frKeys, counter reached zero
        rw [if_pos hzero]
        intro x hx
        unfold addIfAbsent at hx
        by_cases hup2 : u ∈ p.2
        · rw [if_pos hup2] at hx
          exact hF.frKeys x hx
        · rw [if_neg hup2] at hx
          rcases List.mem_append.mp hx with hx | hx
          · exact hF.frKeys x hx
          · have : x = u := by simpa using hx
            subst this
            exact huk
      · rw [if_neg hzero]
        exact hF.frKeys
      · -- frNodup
        rw [if_pos hzero]
        unfold addIfAbsent
        by_cases hup2 : u ∈ p.2
        · rw [if_pos hup2]
          exact hF.frNodup
        · rw [if_neg hup2]
          exact List.Nodup.append hF.frNodup (List.nodup_singleton u)
            (by
              intro a ha hau
              have : a = u := by simpa using hau
              exact hup2 (this ▸ ha))
      · rw [if_neg hzero]
        exact hF.frNodup
      · -- frNew
        rw [if_pos hzero]
        -- the counter of u reached zero: all predecessors of u are emitted
        have hall : ∀ d ∈ s.down u, d ∈ out ++ [e] := by
          have hlen : ((s.down u).filter
              (fun d => decide (d ∈ out ++ [e]))).length = (s.down u).length := by
            have h0 : cntE s (out ++ [e]) u = 0 := by omega
            unfold cntE at h0
            have hle := List.length_filter_le
              (fun d => decide (d ∈ out ++ [e])) (s.down u)
            omega
          have hfe : (s.down u).filter (fun d => decide (d ∈ out ++ [e])) =
              s.down u :=
            List.Sublist.eq_of_length (List.filter_sublist (s.down u)) hlen
          intro d hd
          have := List.filter_eq_self.mp hfe d hd
          simpa using this
        have hue : u ≠ e := by
          intro hcontra
          subst hcontra
          exact heOut (hJustE u hed)
        have huout : u ∉ out := by
          intro hcontra
          obtain ⟨p1, p2, hdecomp⟩ := List.append_of_mem hcontra
          have := houtPrefix p1 u p2 hdecomp e hed
          rw [hdecomp] at heOut
          exact heOut (List.mem_append_left _ this)
        have huout' : u ∉ out ++ [e] := by
          intro hcontra
          rcases List.mem_append.mp hcontra with h | h
          · exact huout h
          · exact hue (by simpa using h)
        intro x hx
        unfold addIfAbsent at hx
        by_cases hup2 : u ∈ p.2
        · rw [if_pos hup2] at hx
          exact hF.frNew x hx
        · rw [if_neg hup2] at hx
          rcases List.mem_append.mp hx with hx | hx
          · exact hF.frNew x hx
          · have : x = u := by simpa using hx
            subst this
            exact Or.inr ⟨huout', hall⟩
      · rw [if_neg hzero]
        exact hF.frNew
    have hnd' : ((done ++ [u]) ++ t).Nodup := by
      rw [List.append_assoc]
      simpa using hnd
    have hups' : ∀ w ∈ t, w ∈ s.up e := fun w hw =>
      hups w (List.mem_cons_of_mem u hw)
    have hresult := ih (done ++ [u]) (kbody s p u) hups' hnd' hF'
    rw [List.append_assoc] at hresult
    simpa using hresult

end PO

namespace PO

theorem KInv_kstep (s : POS) (hWF : WF s) (k : KState) (h : KInv s k) :
    KInv s (kstep s k) := by
  cases hf : k.frontier with
  | nil => rw [kstep_nil s k hf]; exact h
  | cons e rest =>
    have he_fr : e ∈ k.frontier := by rw [hf]; exact List.mem_cons_self e rest
    have he : e ∈ s.keys := h.frKeys e he_fr
    have heOut : e ∉ k.out := h.frOut e he_fr
    have hJustE : ∀ d ∈ s.down e, d ∈ k.out := h.frJust e he_fr
    have hfr_nd : (e :: rest).Nodup := hf ▸ h.frNodup
    have he_rest : e ∉ rest := (List.nodup_cons.mp hfr_nd).1
    have hbase : FInv s e k.out k.counters [] (k.counters, e :: rest) := by
      refine ⟨(by intro u hu; cases hu), (fun u _ => rfl), ?_, ?_, ?_⟩
      · intro x hx
        apply h.frKeys
        rw [hf]
        exact hx
      · exact hfr_nd
      · intro x hx
        rcases List.mem_cons.mp hx with rfl | hx'
        · exact Or.inl rfl
        · right
          have hxfr : x ∈ k.frontier := by
            rw [hf]
            exact List.mem_cons_of_mem e hx'
          constructor
          · intro hcontra
            rcases List.mem_append.mp hcontra with ho | hxe
            · exact h.frOut x hxfr ho
            · exact he_rest ((by simpa using hxe : x = e) ▸ hx')
          · intro d hd
            exact List.mem_append_left _ (h.frJust x hxfr d hd)
    have hF := kfold_inv s hWF e he k.out heOut h.outPrefix hJustE k.counters
      h.cntDom h.cntVal (s.up e) [] (k.counters, e :: rest)
      (fun u hu => hu) (by simpa using (hWF.2.2.2 e he).1) hbase
    rw [List.nil_append] at hF
    rw [kstep_cons s k e rest hf]
    have hmirror : ∀ u ∈ s.keys, e ∈ s.down u → u ∈ s.up e := by
      intro u hu hd
      exact ((hWF.2.2.2 u hu).2.2.2 e hd).2
    refine ⟨?_, ?_, ?_, ?_, ?_, ?_, ?_, ?_, ?_⟩
    · -- outNodup
      exact List.Nodup.append h.outNodup (List.nodup_singleton e)
        (by
          intro x hx hxe
          exact heOut ((by simpa using hxe : x = e) ▸ hx))
    · -- outKeys
      intro x hx
      rcases List.mem_append.mp hx with hx | hx
      · exact h.outKeys x hx
      · exact (by simpa using hx : x = e) ▸ he
    · -- outPrefix
      intro p1 x p2 hdec d hd
      rcases append_singleton_decomp k.out p1 p2 x e hdec with
        ⟨_, rfl, rfl⟩ | ⟨p2', _, hout⟩
      · exact hJustE d hd
      · exact h.outPrefix p1 x p2' hout d hd
    · -- frNodup
      exact List.Nodup.erase e hF.frNodup
    · -- frKeys
      intro x hx
      exact hF.frKeys x (List.mem_of_mem_erase hx)
    · -- frOut
      intro x hx
      obtain ⟨hxe, hxq⟩ := (List.Nodup.mem_erase_iff hF.frNodup).mp hx
      rcases hF.frNew x hxq with rfl | ⟨hno, _⟩
      · exact absurd rfl hxe
      · exact hno
    · -- frJust
      intro x hx
      obtain ⟨hxe, hxq⟩ := (List.Nodup.mem_erase_iff hF.frNodup).mp hx
      rcases hF.frNew x hxq with rfl | ⟨_, hjust⟩
      · exact absurd rfl hxe
      · exact hjust
    · -- cntDom
      dsimp only
      intro u hu
      by_cases hue : u ∈ s.up e
      · have hsome := hF.cntDone u hue
        constructor
        · intro _
          exact ⟨e, (hWF.2.2.2 e he).2.2.1 u hue |>.2, by simp⟩
        · intro _
          rw [hsome]
          simp
      · rw [hF.cntOther u hue]
        rw [h.cntDom u hu]
        constructor
        · rintro ⟨d, hd, hdo⟩
          exact ⟨d, hd, List.mem_append_left _ hdo⟩
        · rintro ⟨d, hd, hdo⟩
          rcases List.mem_append.mp hdo with hdo | hde
          · exact ⟨d, hd, hdo⟩
          · exact absurd (hmirror u hu ((by simpa using hde : d = e) ▸ hd)) hue
    · -- cntVal
      dsimp only
      intro u hu c hc
      by_cases hue : u ∈ s.up e
      · rw [hF.cntDone u hue] at hc
        injection hc with hc
        exact hc.symm
      · rw [hF.cntOther u hue] at hc
        have heu : e ∉ s.down u := fun hd => hue (hmirror u hu hd)
        rw [cntE_append_of_not_mem heu]
        exact h.cntVal u hu c hc

theorem KInv_krun (s : POS) (hWF : WF s) :
    ∀ (fuel : Nat) (k : KState), KInv s k → KInv s (krun s fuel k) := by
  intro fuel
  induction fuel with
  | zero => intro k h; exact h
  | succ fuel ih =>
    intro k h
    unfold krun
    cases hf : k.frontier with
    | nil => exact h
    | cons e rest => exact ih (kstep s k) (KInv_kstep s hWF k h)

theorem KInv_init (s : POS) (hWF : WF s) : KInv s (initK s) := by
  refine ⟨List.nodup_nil, ?_, ?_, hWF.2.1, ?_, ?_, ?_, ?_, ?_⟩
  · intro x hx; cases hx
  · intro p1 x p2 hdec
    have hdec' : ([] : List Nat) = p1 ++ x :: p2 := hdec
    exact absurd hdec' (by cases p1 <;> simp)
  · intro x hx
    exact (hWF.2.2.1 x hx).1
  · intro x _ hx
    cases hx
  · intro x hx d hd
    rw [(hWF.2.2.1 x hx).2] at hd
    cases hd
  · intro u _
    constructor
    · intro hcontra
      exact absurd rfl hcontra
    · rintro ⟨d, _, hd⟩
      cases hd
  · intro u _ c hc
    cases hc

/-- `a` occurs strictly before `b` in the list. -/
def appearsBefore (l : List Nat) (a b : Nat) : Prop :=
  ∃ p1 p2 p3, l = p1 ++ a :: p2 ++ b :: p3

/-- C4 (amended): on any well-formed state, for every ordering edge still
present (the result of an accepted `order(a, b)` not since severed), in
every `sortedValues()` enumeration **in which `b` appears**, `a` appears
strictly before `b`.  As literally stated — requiring `a` before `b`
whenever both are merely still *present* — the claim fails, because a
removed predecessor (or an accepted reflexive edge) can make keys disappear
from the enumeration entirely (see the counterexample and C3). -/
theorem C4_topological_validity (s : POS) (hWF : WF s) (a b : Nat)
    (hedge : a ∈ s.down b) (hb : b ∈ sortedValues s) :
    appearsBefore (sortedValues s) a b := by
  have hK : KInv s (krun s (s.roots.length + s.keys.length) (initK s)) :=
    KInv_krun s hWF _ (initK s) (KInv_init s hWF)
  unfold sortedValues at hb ⊢
  obtain ⟨p1, p2, hdec⟩ := List.append_of_mem hb
  have ha : a ∈ p1 := hK.outPrefix p1 b p2 hdec a hedge
  obtain ⟨q1, q2, hp1⟩ := List.append_of_mem ha
  refine ⟨q1, q2, p2, ?_⟩
  rw [hdec, hp1]

/-- C4 (witness): keys `0, 1` with accepted `order(0, 1)`; the enumeration
is `[0, 1]` and `0` appears before `1`. -/
theorem C4_witness :
    WF c3s1 ∧ 0 ∈ c3s1.down 1 ∧ 1 ∈ sortedValues c3s1 ∧
    appearsBefore (sortedValues c3s1) 0 1 :=
  ⟨by decide, by decide, by decide,
    C4_topological_validity c3s1 (by decide) 0 1 (by decide) (by decide)⟩

/-- Keys `0, 1, 2` with accepted `order(0,1)`, `order(1,2)`, then key `0`
deleted. -/
def c4s : POS :=
  delete (applyOrder (applyOrder (add (add (add empty 0) 1) 2) 0 1) 1 2) 0

/-- C4 (counterexample): in `c4s` the constraint `order(1, 2)` was accepted
and both keys are still present, yet the subsequent enumeration is empty, so
`1` does not appear strictly before `2` in it — the claim as stated fails.
(The enumeration loses both keys through the `delete` root-bookkeeping bug,
see C3.) -/
theorem C4_counterexample :
    1 ∈ c4s.down 2 ∧ hasKey c4s 1 = true ∧ hasKey c4s 2 = true ∧
    sortedValues c4s = [] ∧ ¬ appearsBefore (sortedValues c4s) 1 2 := by
  refine ⟨by decide, by decide, by decide, by decide, ?_⟩
  rintro ⟨p1, p2, p3, hdec⟩
  rw [show sortedValues c4s = [] from by decide] at hdec
  cases p1 <;> simp at hdec

end PO

namespace VG

/-!
## Reactive cell graph (`motion/Volatile.ts`, `Volatile` hierarchy)

Readiness propagation, shallowly embedded.  A cell is either a root
(`RootVolatile`, whose readiness is `value !== UNDEFINED_VALUE`, toggled by
`set`/`unset`) or a derived cell (`DerivatedVolatileBase`, covering both
`DerivatedVolatile` with one source and `MergedVolatiles` with many); cells
are indexed by position in a list and a derived cell's sources point to
strictly earlier indices.  The state is the vector of readiness flags
(`readySet` for derived cells).  `signalF` models
`signalReadyStateChange`: the source's subscribers run their
`subscribeReadyStateChange` handlers in index order, each handler possibly
flipping its own flag and recursively signalling (fuel bounds the recursion
depth, which the strictly increasing cell index keeps below the cell
count).  Root `set` flips the flag and signals only on an actual readiness
transition, mirroring `RootVolatile.set`.
-/

inductive Cell where
  | root (ready : Bool)
  | derived (srcs : List Nat)
  deriving Repr, DecidableEq

structure CellGraph where
  cells : List Cell

def cellAt (g : CellGraph) (i : Nat) : Option Cell := g.cells[i]?

def stGet (st : List Bool) (i : Nat) : Bool := (st[i]?).getD false

/-- `computeReadyFromSources`:
`!!(sources.length) && sources.find((s) => !s.ready()) === undefined`. -/
def computeReady (st : List Bool) (srcs : List Nat) : Bool :=
  !srcs.isEmpty && srcs.all (fun s => stGet st s)

/-- Per-cell well-formedness: a derived cell's sources are pairwise distinct
and strictly earlier in the list. -/
def cellOK (g : CellGraph) (i : Nat) : Prop :=
  match cellAt g i with
  | some (.derived srcs) => srcs.Nodup ∧ ∀ s ∈ srcs, s < i
  | _ => True

instance (g : CellGraph) (i : Nat) : Decidable (cellOK g i) := by
  unfold cellOK
  cases cellAt g i with
  | none => exact inferInstanceAs (Decidable True)
  | some c =>
    cases c with
    | root b => exact inferInstanceAs (Decidable True)
    | derived srcs => exact inferInstanceAs (Decidable (_ ∧ _))

def CGWF (g : CellGraph) : Prop := ∀ i, cellOK g i

instance (g : CellGraph) : Decidable (CGWF g) :=
  @decidable_of_decidable_of_iff
    (∀ i, i ∈ List.range g.cells.length → cellOK g i)
    (CGWF g)
    (List.decidableBAll _ _) (by
    constructor
    · intro h i
      by_cases hi : i < g.cells.length
      · exact h i (List.mem_range.mpr hi)
      · unfold cellOK cellAt
        rw [List.getElem?_eq_none (by omega)]
        exact trivial
    · intro h i _
      exact h i)

theorem CGWF_srcs (g : CellGraph) (hWF : CGWF g) {i : Nat} {srcs : List Nat}
    (hi : cellAt g i = some (.derived srcs)) :
    srcs.Nodup ∧ ∀ s ∈ srcs, s < i := by
  have h := hWF i
  unfold cellOK at h
  rw [hi] at h
  exact h

theorem cellAt_lt (g : CellGraph) {i : Nat} {c : Cell}
    (h : cellAt g i = some c) : i < g.cells.length := by
  by_contra hcontra
  unfold cellAt at h
  rw [List.getElem?_eq_none (by omega)] at h
  cases h

theorem stGet_set_self (st : List Bool) (i : Nat) (v : Bool)
    (h : i < st.length) : stGet (st.set i v) i = v := by
  unfold stGet
  rw [List.getElem?_set_self h]
  rfl

theorem stGet_set_ne (st : List Bool) (i j : Nat) (v : Bool) (h : i ≠ j) :
    stGet (st.set i v) j = stGet st j := by
  unfold stGet
  rw [List.getElem?_set_ne h]

theorem computeReady_congr {st st' : List Bool} (srcs : List Nat)
    (h : ∀ s ∈ srcs, stGet st s = stGet st' s) :
    computeReady st srcs = computeReady st' srcs := by
  unfold computeReady
  congr 1
  induction srcs with
  | nil => rfl
  | cons a t ih =>
    rw [List.all_cons, List.all_cons, h a (List.mem_cons_self a t),
      ih (fun s hs => h s (List.mem_cons_of_mem a hs))]

theorem computeReady_mono {st st' : List Bool} (srcs : List Nat)
    (h : ∀ s, stGet st s = true → stGet st' s = true)
    (hc : computeReady st srcs = true) : computeReady st' srcs = true := by
  unfold computeReady at hc ⊢
  simp only [Bool.and_eq_true, List.all_eq_true] at hc ⊢
  exact ⟨hc.1, fun s hs => h s (hc.2 s hs)⟩

theorem computeReady_anti {st st' : List Bool} (srcs : List Nat)
    (h : ∀ s, stGet st' s = true → stGet st s = true)
    (hc : computeReady st srcs = false) : computeReady st' srcs = false := by
  by_contra hcontra
  rw [computeReady_mono srcs h (by
    cases hcr : computeReady st' srcs with
    | true => rfl
    | false => exact absurd hcr hcontra)] at hc
  cases hc

/-- The subscribers of cell `j`: every derived cell holding `j` among its
sources (each subscribed once per distinct source), in initialization
order. -/
def subsOf (g : CellGraph) (j : Nat) : List Nat :=
  (List.range g.cells.length).filter (fun i =>
    match cellAt g i with
    | some (.derived srcs) => decide (j ∈ srcs)
    | _ => false)

theorem mem_subsOf (g : CellGraph) (j i : Nat) :
    i ∈ subsOf g j ↔
      i < g.cells.length ∧
      ∃ srcs, cellAt g i = some (.derived srcs) ∧ j ∈ srcs := by
  unfold subsOf
  rw [List.mem_filter, List.mem_range]
  constructor
  · rintro ⟨h1, h2⟩
    refine ⟨h1, ?_⟩
    cases hc : cellAt g i with
    | none => rw [hc] at h2; cases h2
    | some c =>
      cases c with
      | root b => rw [hc] at h2; cases h2
      | derived srcs =>
        rw [hc] at h2
        exact ⟨srcs, rfl, by simpa using h2⟩
  · rintro ⟨h1, srcs, hc, hj⟩
    exact ⟨h1, by rw [hc]; simpa using hj⟩

/-- `signalReadyStateChange` cascade: dispatch the new readiness `b` of cell
`j` to each subscriber in order; a subscriber that actually flips signals
recursively.  Mirrors the handler registered in
`DerivatedVolatileBase.initialize`. -/
def signalF (g : CellGraph) : Nat → List Bool → Nat → Bool → List Bool
  | 0, st, _, _ => st
  | fuel + 1, st, j, b =>
    (subsOf g j).foldl
      (fun st i =>
        match cellAt g i with
        | some (.derived srcs) =>
          if stGet st i && !b then signalF g fuel (st.set i false) i false
          else if !(stGet st i) && b then
            if computeReady st srcs then signalF g fuel (st.set i true) i true
            else st
          else st
        | _ => st)
      st

/-- `RootVolatile.set`, abstracted to the readiness bit: records the new
readiness and signals the change only when it differs from the previous
one. -/
def setRoot (g : CellGraph) (st : List Bool) (kv : Nat × Bool) : List Bool :=
  match cellAt g kv.1 with
  | some (.root _) =>
    if stGet st kv.1 != kv.2 then
      signalF g g.cells.length (st.set kv.1 kv.2) kv.1 kv.2
    else st.set kv.1 kv.2
  | _ => st

def applyEvents (g : CellGraph) (events : List (Nat × Bool))
    (st : List Bool) : List Bool :=
  events.foldl (setRoot g) st

/-- The state after `ensureInitialized` has run bottom-up over the whole
graph: every root holds its readiness and every derived cell the AND of its
sources' readiness, computed in index order (at a cell's initialization its
own later subscribers have not yet subscribed, so the final
`signalReadyStateChange` of `initialize` has no listeners). -/
def initState (g : CellGraph) : List Bool :=
  (List.range g.cells.length).foldl
    (fun st i =>
      match cellAt g i with
      | some (.root b) => st.set i b
      | some (.derived srcs) => st.set i (computeReady st srcs)
      | none => st)
    (List.replicate g.cells.length false)

/-- The readiness invariant: every derived cell's cached `readySet` equals
the recomputed AND over its sources. -/
def okInv (g : CellGraph) (st : List Bool) : Prop :=
  ∀ i srcs, cellAt g i = some (.derived srcs) →
    stGet st i = computeReady st srcs

end VG

namespace VG

/-- True cells are justified: every ready derived cell's sources are all
ready. -/
def JustP (g : CellGraph) (st : List Bool) : Prop :=
  ∀ i srcs, cellAt g i = some (.derived srcs) → stGet st i = true →
    computeReady st srcs = true

/-- False cells are justified: every not-ready derived cell has a not-ready
source (or no source). -/
def JustN (g : CellGraph) (st : List Bool) : Prop :=
  ∀ i srcs, cellAt g i = some (.derived srcs) → stGet st i = false →
    computeReady st srcs = false

theorem okInv_iff (g : CellGraph) (st : List Bool) :
    okInv g st ↔ JustP g st ∧ JustN g st := by
  constructor
  · intro h
    constructor
    · intro i srcs hi ht
      rw [← h i srcs hi]
      exact ht
    · intro i srcs hi hf
      rw [← h i srcs hi]
      exact hf
  · rintro ⟨hp, hn⟩ i srcs hi
    cases hst : stGet st i with
    | true => exact (hp i srcs hi hst).symm
    | false => exact (hn i srcs hi hst).symm

theorem computeReady_false_of_src {st : List Bool} {srcs : List Nat} {s : Nat}
    (hs : s ∈ srcs) (hfalse : stGet st s = false) :
    computeReady st srcs = false := by
  unfold computeReady
  have : srcs.all (fun x => stGet st x) = false := by
    rw [List.all_eq_false]
    exact ⟨s, hs, by simp [hfalse]⟩
  rw [this]
  simp

/-- The subscriber handler, as folded over by `signalF`. -/
def hnd (g : CellGraph) (fuel : Nat) (b : Bool) (st : List Bool) (i : Nat) :
    List Bool :=
  match cellAt g i with
  | some (.derived srcs) =>
    if stGet st i && !b then signalF g fuel (st.set i false) i false
    else if !(stGet st i) && b then
      if computeReady st srcs then signalF g fuel (st.set i true) i true
      else st
    else st
  | _ => st

theorem signalF_succ (g : CellGraph) (fuel : Nat) (st : List Bool)
    (j : Nat) (b : Bool) :
    signalF g (fuel + 1) st j b = (subsOf g j).foldl (hnd g fuel b) st := rfl

theorem hnd_true_stay (g : CellGraph) {fuel i : Nat} {st : List Bool}
    {srcs : List Nat} (hder : cellAt g i = some (.derived srcs))
    (hti : stGet st i = true) : hnd g fuel true st i = st := by
  unfold hnd
  rw [hder]
  simp [hti]

theorem hnd_true_fire (g : CellGraph) {fuel i : Nat} {st : List Bool}
    {srcs : List Nat} (hder : cellAt g i = some (.derived srcs))
    (hti : stGet st i = false) (hc : computeReady st srcs = true) :
    hnd g fuel true st i = signalF g fuel (st.set i true) i true := by
  unfold hnd
  rw [hder]
  simp [hti, hc]

theorem hnd_true_nofire (g : CellGraph) {fuel i : Nat} {st : List Bool}
    {srcs : List Nat} (hder : cellAt g i = some (.derived srcs))
    (hti : stGet st i = false) (hc : computeReady st srcs = false) :
    hnd g fuel true st i = st := by
  unfold hnd
  rw [hder]
  simp [hti, hc]

theorem hnd_false_fire (g : CellGraph) {fuel i : Nat} {st : List Bool}
    {srcs : List Nat} (hder : cellAt g i = some (.derived srcs))
    (hti : stGet st i = true) :
    hnd g fuel false st i = signalF g fuel (st.set i false) i false := by
  unfold hnd
  rw [hder]
  simp [hti]

theorem hnd_false_stay (g : CellGraph) {fuel i : Nat} {st : List Bool}
    {srcs : List Nat} (hder : cellAt g i = some (.derived srcs))
    (hti : stGet st i = false) : hnd g fuel false st i = st := by
  unfold hnd
  rw [hder]
  simp [hti]

/-- Conclusion bundle of an upward (`ready = true`) cascade from `j`:
lengths preserved, cells up to `j` untouched, readiness only gained, ready
cells stay justified, and any still-unready cell whose sources are now all
ready was already like that before and does not listen to `j`. -/
def UpConc (g : CellGraph) (st out : List Bool) (j : Nat) : Prop :=
  out.length = st.length ∧
  (∀ i, i ≤ j → stGet out i = stGet st i) ∧
  (∀ i, stGet st i = true → stGet out i = true) ∧
  JustP g out ∧
  (∀ i srcs, cellAt g i = some (.derived srcs) →
    stGet out i = false → computeReady out srcs = true →
    stGet st i = false ∧ computeReady st srcs = true ∧ j ∉ srcs)

theorem up_cascade (g : CellGraph) (hWF : CGWF g) :
    ∀ (fuel j : Nat) (st : List Bool),
      g.cells.length - j ≤ fuel → st.length = g.cells.length →
      stGet st j = true → JustP g st →
      UpConc g st (signalF g fuel st j true) j := by
  intro fuel
  induction fuel with
  | zero =>
    intro j st hfuel hlen hj hjust
    refine ⟨rfl, fun i _ => rfl, fun i h => h, hjust, ?_⟩
    intro i srcs hder hf hc
    refine ⟨hf, hc, ?_⟩
    intro hj_src
    have hji : j < i := (CGWF_srcs g hWF hder).2 j hj_src
    have hin : i < g.cells.length := cellAt_lt g hder
    omega
  | succ fuel ihF =>
    intro j st hfuel hlen hj hjust
    rw [signalF_succ]
    -- inner induction over the subscriber list
    suffices inner : ∀ todo : List Nat, (∀ i ∈ todo, i ∈ subsOf g j) →
        ∀ st1 : List Bool, st1.length = g.cells.length →
        stGet st1 j = true → JustP g st1 →
        (∀ i, i ≤ j → stGet st1 i = stGet st i) →
        (∀ i, stGet st i = true → stGet st1 i = true) →
        (∀ i srcs, cellAt g i = some (.derived srcs) → stGet st1 i = false →
          computeReady st1 srcs = true →
          (j ∈ srcs ∧ i ∈ todo) ∨
          (j ∉ srcs ∧ stGet st i = false ∧ computeReady st srcs = true)) →
        (todo.foldl (hnd g fuel true) st1).length = g.cells.length ∧
        (∀ i, i ≤ j →
          stGet (todo.foldl (hnd g fuel true) st1) i = stGet st i) ∧
        (∀ i, stGet st1 i = true →
          stGet (todo.foldl (hnd g fuel true) st1) i = true) ∧
        JustP g (todo.foldl (hnd g fuel true) st1) ∧
        (∀ i srcs, cellAt g i = some (.derived srcs) →
          stGet (todo.foldl (hnd g fuel true) st1) i = false →
          computeReady (todo.foldl (hnd g fuel true) st1) srcs = true →
          stGet st i = false ∧ computeReady st srcs = true ∧ j ∉ srcs) by
      have hres := inner (subsOf g j) (fun i hi => hi) st hlen hj hjust
        (fun i _ => rfl) (fun i h => h)
        (by
          intro i srcs hder hf hc
          by_cases hjs : j ∈ srcs
          · left
            refine ⟨hjs, ?_⟩
            rw [mem_subsOf]
            exact ⟨cellAt_lt g hder, srcs, hder, hjs⟩
          · exact Or.inr ⟨hjs, hf, hc⟩)
      obtain ⟨c1, c2, c3, c4, c5⟩ := hres
      exact ⟨by rw [c1, hlen], c2, c3, c4, c5⟩
    intro todo
    induction todo with
    | nil =>
      intro _ st1 hlen1 hj1 hjust1 hagree hmono hE
      refine ⟨by simpa using hlen1, ?_, fun i h => h, hjust1, ?_⟩
      · intro i hij
        simpa using hagree i hij
      · intro i srcs hder hf hc
        rcases hE i srcs hder hf hc with ⟨_, hmem⟩ | ⟨h1, h2, h3⟩
        · cases hmem
        · exact ⟨h2, h3, h1⟩
    | cons i1 tl ihT =>
      intro htodo st1 hlen1 hj1 hjust1 hagree hmono hE
      have hi1_sub : i1 ∈ subsOf g j := htodo i1 (List.mem_cons_self i1 tl)
      obtain ⟨hi1_lt, srcs1, hder1, hj_in⟩ := (mem_subsOf g j i1).mp hi1_sub
      have hji1 : j < i1 := (CGWF_srcs g hWF hder1).2 j hj_in
      rw [List.foldl_cons]
      cases hti : stGet st1 i1 with
      | true =>
        rw [hnd_true_stay g hder1 hti]
        refine ihT (fun i hi => htodo i (List.mem_cons_of_mem i1 hi))
          st1 hlen1 hj1 hjust1 hagree hmono ?_
        intro i srcs hder hf hc
        rcases hE i srcs hder hf hc with ⟨hjs, hmem⟩ | hr
        · left
          refine ⟨hjs, ?_⟩
          rcases List.mem_cons.mp hmem with rfl | hmem'
          · rw [hti] at hf; cases hf
          · exact hmem'
        · exact Or.inr hr
      | false =>
        cases hc1 : computeReady st1 srcs1 with
        | false =>
          rw [hnd_true_nofire g hder1 hti hc1]
          refine ihT (fun i hi => htodo i (List.mem_cons_of_mem i1 hi))
            st1 hlen1 hj1 hjust1 hagree hmono ?_
          intro i srcs hder hf hc
          rcases hE i srcs hder hf hc with ⟨hjs, hmem⟩ | hr
          · left
            refine ⟨hjs, ?_⟩
            rcases List.mem_cons.mp hmem with rfl | hmem'
            · rw [hder] at hder1
              injection hder1 with hder1
              injection hder1 with hder1
              rw [← hder1] at hc1
              rw [hc] at hc1
              cases hc1
            · exact hmem'
          · exact Or.inr hr
        | true =>
          rw [hnd_true_fire g hder1 hti hc1]
          -- the subscriber flips to ready and cascades from i1
          have hlenS : (st1.set i1 true).length = g.cells.length := by
            rw [List.length_set]; exact hlen1
          have hgetS : stGet (st1.set i1 true) i1 = true :=
            stGet_set_self st1 i1 true (by omega)
          have hmonoS : ∀ i, stGet st1 i = true →
              stGet (st1.set i1 true) i = true := by
            intro i hsti
            by_cases hii : i = i1
            · subst hii; exact hgetS
            · rw [stGet_set_ne st1 i1 i true (fun h => hii h.symm)]; exact hsti
          have hjustS : JustP g (st1.set i1 true) := by
            intro k srcs hderk htk
            by_cases hki : k = i1
            · subst hki
              rw [hderk] at hder1
              injection hder1 with hder1
              injection hder1 with hder1
              exact computeReady_mono srcs hmonoS (hder1 ▸ hc1)
            · rw [stGet_set_ne st1 i1 k true (fun h => hki h.symm)] at htk
              exact computeReady_mono srcs hmonoS (hjust1 k srcs hderk htk)
          have hK := ihF i1 (st1.set i1 true) (by omega) hlenS hgetS hjustS
          obtain ⟨k1, k2, k3, k4, k5⟩ := hK
          set st2 := signalF g fuel (st1.set i1 true) i1 true with hst2
          -- hand the rest of the todo list the cascaded state
          have hj2 : stGet st2 j = true := by
            rw [k2 j (by omega), stGet_set_ne st1 i1 j true (by omega)]
            exact hj1
          have hagree2 : ∀ i, i ≤ j → stGet st2 i = stGet st i := by
            intro i hij
            rw [k2 i (by omega), stGet_set_ne st1 i1 i true (by omega)]
            exact hagree i hij
          have hmono2 : ∀ i, stGet st i = true → stGet st2 i = true := by
            intro i hsti
            exact k3 i (hmonoS i (hmono i hsti))
          have hE2 : ∀ i srcs, cellAt g i = some (.derived srcs) →
              stGet st2 i = false → computeReady st2 srcs = true →
              (j ∈ srcs ∧ i ∈ tl) ∨
              (j ∉ srcs ∧ stGet st i = false ∧
                computeReady st srcs = true) := by
            intro i srcs hder hf hc
            obtain ⟨hfS, hcS, hi1_not⟩ := k5 i srcs hder hf hc
            have hii1 : i ≠ i1 := by
              intro h
              rw [h, hgetS] at hfS
              cases hfS
            have hf1 : stGet st1 i = false := by
              rw [stGet_set_ne st1 i1 i true (fun h => hii1 h.symm)] at hfS
              exact hfS
            have hc1' : computeReady st1 srcs = true := by
              rw [computeReady_congr srcs (fun s hs =>
                (stGet_set_ne st1 i1 s true (fun h =>
                  hi1_not (h ▸ hs))).symm)]
              exact hcS
            rcases hE i srcs hder hf1 hc1' with ⟨hjs, hmem⟩ | hr
            · left
              refine ⟨hjs, ?_⟩
              rcases List.mem_cons.mp hmem with rfl | hmem'
              · exact absurd rfl hii1
              · exact hmem'
            · exact Or.inr hr
          obtain ⟨t1, t2, t3, t4, t5⟩ :=
            ihT (fun i hi => htodo i (List.mem_cons_of_mem i1 hi))
              st2 (by rw [k1, hlenS]) hj2 k4 hagree2 hmono2 hE2
          exact ⟨t1, t2,
            fun i hi => t3 i (k3 i (hmonoS i hi)), t4, t5⟩

end VG

namespace VG

/-- Conclusion bundle of a downward (`ready = false`) cascade from `j`. -/
def DownConc (g : CellGraph) (st out : List Bool) (j : Nat) : Prop :=
  out.length = st.length ∧
  (∀ i, i ≤ j → stGet out i = stGet st i) ∧
  (∀ i, stGet st i = false → stGet out i = false) ∧
  JustN g out ∧
  (∀ i srcs, cellAt g i = some (.derived srcs) →
    stGet out i = true → computeReady out srcs = false →
    stGet st i = true ∧ computeReady st srcs = false ∧ j ∉ srcs)

theorem down_cascade (g : CellGraph) (hWF : CGWF g) :
    ∀ (fuel j : Nat) (st : List Bool),
      g.cells.length - j ≤ fuel → st.length = g.cells.length →
      stGet st j = false → JustN g st →
      DownConc g st (signalF g fuel st j false) j := by
  intro fuel
  induction fuel with
  | zero =>
    intro j st hfuel hlen hj hjust
    refine ⟨rfl, fun i _ => rfl, fun i h => h, hjust, ?_⟩
    intro i srcs hder ht hc
    refine ⟨ht, hc, ?_⟩
    intro hj_src
    have hji : j < i := (CGWF_srcs g hWF hder).2 j hj_src
    have hin : i < g.cells.length := cellAt_lt g hder
    omega
  | succ fuel ihF =>
    intro j st hfuel hlen hj hjust
    rw [signalF_succ]
    suffices inner : ∀ todo : List Nat, (∀ i ∈ todo, i ∈ subsOf g j) →
        ∀ st1 : List Bool, st1.length = g.cells.length →
        stGet st1 j = false → JustN g st1 →
        (∀ i, i ≤ j → stGet st1 i = stGet st i) →
        (∀ i, stGet st i = false → stGet st1 i = false) →
        (∀ i srcs, cellAt g i = some (.derived srcs) → stGet st1 i = true →
          computeReady st1 srcs = false →
          (j ∈ srcs ∧ i ∈ todo) ∨
          (j ∉ srcs ∧ stGet st i = true ∧ computeReady st srcs = false)) →
        (todo.foldl (hnd g fuel false) st1).length = g.cells.length ∧
        (∀ i, i ≤ j →
          stGet (todo.foldl (hnd g fuel false) st1) i = stGet st i) ∧
        (∀ i, stGet st1 i = false →
          stGet (todo.foldl (hnd g fuel false) st1) i = false) ∧
        JustN g (todo.foldl (hnd g fuel false) st1) ∧
        (∀ i srcs, cellAt g i = some (.derived srcs) →
          stGet (todo.foldl (hnd g fuel false) st1) i = true →
          computeReady (todo.foldl (hnd g fuel false) st1) srcs = false →
          stGet st i = true ∧ computeReady st srcs = false ∧ j ∉ srcs) by
      have hres := inner (subsOf g j) (fun i hi => hi) st hlen hj hjust
        (fun i _ => rfl) (fun i h => h)
        (by
          intro i srcs hder ht hc
          by_cases hjs : j ∈ srcs
          · left
            refine ⟨hjs, ?_⟩
            rw [mem_subsOf]
            exact ⟨cellAt_lt g hder, srcs, hder, hjs⟩
          · exact Or.inr ⟨hjs, ht, hc⟩)
      obtain ⟨c1, c2, c3, c4, c5⟩ := hres
      exact ⟨by rw [c1, hlen], c2, c3, c4, c5⟩
    intro todo
    induction todo with
    | nil =>
      intro _ st1 hlen1 hj1 hjust1 hagree hanti hE
      refine ⟨by simpa using hlen1, ?_, fun i h => h, hjust1, ?_⟩
      · intro i hij
        simpa using hagree i hij
      · intro i srcs hder ht hc
        rcases hE i srcs hder ht hc with ⟨_, hmem⟩ | ⟨h1, h2, h3⟩
        · cases hmem
        · exact ⟨h2, h3, h1⟩
    | cons i1 tl ihT =>
      intro htodo st1 hlen1 hj1 hjust1 hagree hanti hE
      have hi1_sub : i1 ∈ subsOf g j := htodo i1 (List.mem_cons_self i1 tl)
      obtain ⟨hi1_lt, srcs1, hder1, hj_in⟩ := (mem_subsOf g j i1).mp hi1_sub
      have hji1 : j < i1 := (CGWF_srcs g hWF hder1).2 j hj_in
      rw [List.foldl_cons]
      cases hti : stGet st1 i1 with
      | false =>
        rw [hnd_false_stay g hder1 hti]
        refine ihT (fun i hi => htodo i (List.mem_cons_of_mem i1 hi))
          st1 hlen1 hj1 hjust1 hagree hanti ?_
        intro i srcs hder ht hc
        rcases hE i srcs hder ht hc with ⟨hjs, hmem⟩ | hr
        · left
          refine ⟨hjs, ?_⟩
          rcases List.mem_cons.mp hmem with rfl | hmem'
          · rw [hti] at ht; cases ht
          · exact hmem'
        · exact Or.inr hr
      | true =>
        rw [hnd_false_fire g hder1 hti]
        have hlenS : (st1.set i1 false).length = g.cells.length := by
          rw [List.length_set]; exact hlen1
        have hgetS : stGet (st1.set i1 false) i1 = false :=
          stGet_set_self st1 i1 false (by omega)
        have hantiS : ∀ i, stGet st1 i = false →
            stGet (st1.set i1 false) i = false := by
          intro i hsti
          by_cases hii : i = i1
          · subst hii; exact hgetS
          · rw [stGet_set_ne st1 i1 i false (fun h => hii h.symm)]; exact hsti
        have hupS : ∀ i, stGet (st1.set i1 false) i = true →
            stGet st1 i = true := by
          intro i hsti
          by_cases hii : i = i1
          · subst hii
            rw [hgetS] at hsti
            cases hsti
          · rw [stGet_set_ne st1 i1 i false (fun h => hii h.symm)] at hsti
            exact hsti
        have hjustS : JustN g (st1.set i1 false) := by
          intro k srcs hderk htk
          by_cases hki : k = i1
          · rw [hki] at hderk
            rw [hderk] at hder1
            injection hder1 with hder1
            injection hder1 with hder1
            refine computeReady_false_of_src (hder1 ▸ hj_in) ?_
            rw [stGet_set_ne st1 i1 j false (by omega)]
            exact hj1
          · rw [stGet_set_ne st1 i1 k false (fun h => hki h.symm)] at htk
            exact computeReady_anti srcs hupS (hjust1 k srcs hderk htk)
        have hK := ihF i1 (st1.set i1 false) (by omega) hlenS hgetS hjustS
        obtain ⟨k1, k2, k3, k4, k5⟩ := hK
        set st2 := signalF g fuel (st1.set i1 false) i1 false with hst2
        have hj2 : stGet st2 j = false := by
          rw [k2 j (by omega), stGet_set_ne st1 i1 j false (by omega)]
          exact hj1
        have hagree2 : ∀ i, i ≤ j → stGet st2 i = stGet st i := by
          intro i hij
          rw [k2 i (by omega), stGet_set_ne st1 i1 i false (by omega)]
          exact hagree i hij
        have hanti2 : ∀ i, stGet st i = false → stGet st2 i = false := by
          intro i hsti
          exact k3 i (hantiS i (hanti i hsti))
        have hE2 : ∀ i srcs, cellAt g i = some (.derived srcs) →
            stGet st2 i = true → computeReady st2 srcs = false →
            (j ∈ srcs ∧ i ∈ tl) ∨
            (j ∉ srcs ∧ stGet st i = true ∧
              computeReady st srcs = false) := by
          intro i srcs hder ht hc
          obtain ⟨htS, hcS, hi1_not⟩ := k5 i srcs hder ht hc
          have hii1 : i ≠ i1 := by
            intro h
            rw [h, hgetS] at htS
            cases htS
          have ht1 : stGet st1 i = true := by
            rw [stGet_set_ne st1 i1 i false (fun h => hii1 h.symm)] at htS
            exact htS
          have hc1' : computeReady st1 srcs = false := by
            rw [computeReady_congr srcs (fun s hs =>
              (stGet_set_ne st1 i1 s false (fun h =>
                hi1_not (h ▸ hs))).symm)]
            exact hcS
          rcases hE i srcs hder ht1 hc1' with ⟨hjs, hmem⟩ | hr
          · left
            refine ⟨hjs, ?_⟩
            rcases List.mem_cons.mp hmem with rfl | hmem'
            · exact absurd rfl hii1
            · exact hmem'
          · exact Or.inr hr
        obtain ⟨t1, t2, t3, t4, t5⟩ :=
          ihT (fun i hi => htodo i (List.mem_cons_of_mem i1 hi))
            st2 (by rw [k1, hlenS]) hj2 k4 hagree2 hanti2 hE2
        exact ⟨t1, t2,
          fun i hi => t3 i (k3 i (hantiS i hi)), t4, t5⟩

end VG

namespace VG

theorem okInv_setRoot (g : CellGraph) (hWF : CGWF g) (st : List Bool)
    (hlen : st.length = g.cells.length) (hok : okInv g st) (ev : Nat × Bool) :
    okInv g (setRoot g st ev) ∧ (setRoot g st ev).length = g.cells.length := by
  obtain ⟨k, b⟩ := ev
  unfold setRoot
  cases hc : cellAt g k with
  | none => exact ⟨hok, hlen⟩
  | some cell =>
    cases cell with
    | derived srcs => exact ⟨hok, hlen⟩
    | root r =>
      have hk : k < g.cells.length := cellAt_lt g hc
      cases hne : stGet st k != b with
      | false =>
        -- no readiness transition: the stored bit is overwritten in place
        rw [if_neg (by simp [hne])]
        have hb : stGet st k = b := by
          simpa using hne
        have hpt : ∀ i, stGet (st.set k b) i = stGet st i := by
          intro i
          by_cases hik : i = k
          · subst hik
            rw [stGet_set_self st i b (by omega), hb]
          · rw [stGet_set_ne st k i b (fun h => hik h.symm)]
        constructor
        · intro i srcs hder
          rw [hpt i, computeReady_congr srcs (fun s _ => hpt s)]
          exact hok i srcs hder
        · rw [List.length_set]; exact hlen
      | true =>
        rw [if_pos (by simp_all)]
        have hprev : stGet st k ≠ b := by
          simpa using hne
        have hlen' : (st.set k b).length = g.cells.length := by
          rw [List.length_set]; exact hlen
        have hget' : stGet (st.set k b) k = b := stGet_set_self st k b (by omega)
        have hkderived : ∀ i (srcs : List Nat),
            cellAt g i = some (.derived srcs) → i ≠ k := by
          intro i srcs hder hik
          rw [hik, hc] at hder
          cases hder
        cases b with
        | true =>
          have hmono' : ∀ s, stGet st s = true → stGet (st.set k true) s = true := by
            intro s hs
            by_cases hsk : s = k
            · subst hsk; exact hget'
            · rw [stGet_set_ne st k s true (fun h => hsk h.symm)]; exact hs
          have hjust' : JustP g (st.set k true) := by
            intro i srcs hder ht
            have hik : i ≠ k := hkderived i srcs hder
            rw [stGet_set_ne st k i true (fun h => hik h.symm)] at ht
            have := hok i srcs hder
            rw [ht] at this
            exact computeReady_mono srcs hmono' this.symm
          obtain ⟨u1, u2, u3, u4, u5⟩ := up_cascade g hWF g.cells.length k
            (st.set k true) (by omega) hlen' hget' hjust'
          constructor
          · rw [okInv_iff]
            refine ⟨u4, ?_⟩
            intro i srcs hder hf
            cases hcr : computeReady
                (signalF g g.cells.length (st.set k true) k true) srcs with
            | false => rfl
            | true =>
              exfalso
              obtain ⟨hfS, hcS, hknot⟩ := u5 i srcs hder hf hcr
              have hik : i ≠ k := hkderived i srcs hder
              rw [stGet_set_ne st k i true (fun h => hik h.symm)] at hfS
              have hcSt : computeReady st srcs = true := by
                rw [computeReady_congr srcs (fun s hs =>
                  (stGet_set_ne st k s true (fun h =>
                    hknot (h ▸ hs))).symm)]
                exact hcS
              have := hok i srcs hder
              rw [hfS, hcSt] at this
              cases this
          · rw [u1, hlen']
        | false =>
          have hanti' : ∀ s, stGet (st.set k false) s = true →
              stGet st s = true := by
            intro s hs
            by_cases hsk : s = k
            · subst hsk
              rw [stGet_set_self st s false (by omega)] at hs
              cases hs
            · rw [stGet_set_ne st k s false (fun h => hsk h.symm)] at hs
              exact hs
          have hjust' : JustN g (st.set k false) := by
            intro i srcs hder hf
            have hik : i ≠ k := hkderived i srcs hder
            rw [stGet_set_ne st k i false (fun h => hik h.symm)] at hf
            have := hok i srcs hder
            rw [hf] at this
            exact computeReady_anti srcs hanti' this.symm
          obtain ⟨u1, u2, u3, u4, u5⟩ := down_cascade g hWF g.cells.length k
            (st.set k false) (by omega) hlen' hget' hjust'
          constructor
          · rw [okInv_iff]
            refine ⟨?_, u4⟩
            intro i srcs hder ht
            cases hcr : computeReady
                (signalF g g.cells.length (st.set k false) k false) srcs with
            | true => rfl
            | false =>
              exfalso
              obtain ⟨htS, hcS, hknot⟩ := u5 i srcs hder ht hcr
              have hik : i ≠ k := hkderived i srcs hder
              rw [stGet_set_ne st k i false (fun h => hik h.symm)] at htS
              have hcSt : computeReady st srcs = false := by
                rw [computeReady_congr srcs (fun s hs =>
                  (stGet_set_ne st k s false (fun h =>
                    hknot (h ▸ hs))).symm)]
                exact hcS
              have := hok i srcs hder
              rw [htS, hcSt] at this
              cases this
          · rw [u1, hlen']

theorem okInv_applyEvents (g : CellGraph) (hWF : CGWF g)
    (events : List (Nat × Bool)) :
    ∀ st : List Bool, st.length = g.cells.length → okInv g st →
      okInv g (applyEvents g events st) ∧
      (applyEvents g events st).length = g.cells.length := by
  induction events with
  | nil => intro st hlen hok; exact ⟨hok, hlen⟩
  | cons ev evs ih =>
    intro st hlen hok
    have hstep := okInv_setRoot g hWF st hlen hok ev
    exact ih (setRoot g st ev) hstep.2 hstep.1

/-- One step of the bottom-up initialization fold. -/
def initStep (g : CellGraph) (st : List Bool) (i : Nat) : List Bool :=
  match cellAt g i with
  | some (.root b) => st.set i b
  | some (.derived srcs) => st.set i (computeReady st srcs)
  | none => st

theorem initState_eq (g : CellGraph) :
    initState g = (List.range g.cells.length).foldl (initStep g)
      (List.replicate g.cells.length false) := rfl

theorem initState_ok (g : CellGraph) (hWF : CGWF g) :
    okInv g (initState g) ∧ (initState g).length = g.cells.length := by
  suffices h : ∀ m : Nat,
      ((List.range m).foldl (initStep g)
        (List.replicate g.cells.length false)).length = g.cells.length ∧
      (∀ i, m ≤ i →
        stGet ((List.range m).foldl (initStep g)
          (List.replicate g.cells.length false)) i = false) ∧
      (∀ i srcs, i < m → cellAt g i = some (.derived srcs) →
        stGet ((List.range m).foldl (initStep g)
          (List.replicate g.cells.length false)) i =
        computeReady ((List.range m).foldl (initStep g)
          (List.replicate g.cells.length false)) srcs) by
    obtain ⟨h1, _, h3⟩ := h g.cells.length
    rw [initState_eq]
    refine ⟨?_, h1⟩
    intro i srcs hder
    exact h3 i srcs (cellAt_lt g hder) hder
  have hrepl : ∀ i : Nat, stGet (List.replicate g.cells.length false) i = false := by
    intro i
    unfold stGet
    rw [List.getElem?_replicate]
    rcases Nat.lt_or_ge i g.cells.length with h | h
    · rw [if_pos h]
      rfl
    · rw [if_neg (by omega)]
      rfl
  intro m
  induction m with
  | zero =>
    rw [List.range_zero, List.foldl_nil]
    refine ⟨by simp, fun i _ => hrepl i, ?_⟩
    intro i srcs h
    omega
  | succ m ihm =>
    obtain ⟨p1, p2, p3⟩ := ihm
    rw [List.range_succ, List.foldl_append, List.foldl_cons, List.foldl_nil]
    set stm := (List.range m).foldl (initStep g)
      (List.replicate g.cells.length false) with hstm
    unfold initStep
    cases hc : cellAt g m with
    | none =>
      refine ⟨p1, ?_, ?_⟩
      · intro i hi; exact p2 i (by omega)
      · intro i srcs hi hder
        rcases Nat.lt_or_ge i m with him | him
        · exact p3 i srcs him hder
        · have : i = m := by omega
          subst this
          rw [hder] at hc
          cases hc
    | some cell =>
      have hm : m < g.cells.length := cellAt_lt g hc
      cases cell with
      | root b =>
        dsimp only
        refine ⟨by rw [List.length_set]; exact p1, ?_, ?_⟩
        · intro i hi
          rw [stGet_set_ne stm m i b (by omega)]
          exact p2 i (by omega)
        · intro i srcs hi hder
          rcases Nat.lt_or_ge i m with him | him
          · have hsm : ∀ s ∈ srcs, s < m := by
              intro s hs
              have := (CGWF_srcs g hWF hder).2 s hs
              omega
            rw [stGet_set_ne stm m i b (by omega)]
            rw [← computeReady_congr srcs (fun s hs =>
              (stGet_set_ne stm m s b (by
                have := hsm s hs
                omega)).symm)]
            exact p3 i srcs him hder
          · have : i = m := by omega
            subst this
            rw [hder] at hc
            cases hc
      | derived srcsm =>
        dsimp only
        refine ⟨by rw [List.length_set]; exact p1, ?_, ?_⟩
        · intro i hi
          rw [stGet_set_ne stm m i _ (by omega)]
          exact p2 i (by omega)
        · intro i srcs hi hder
          have hcongr : ∀ t : List Nat, (∀ s ∈ t, s < m) →
              computeReady (stm.set m (computeReady stm srcsm)) t =
                computeReady stm t := by
            intro t ht
            refine (computeReady_congr t (fun s hs =>
              (stGet_set_ne stm m s _ (by
                have := ht s hs
                omega)).symm)).symm
          rcases Nat.lt_or_ge i m with him | him
          · have hsm : ∀ s ∈ srcs, s < m := by
              intro s hs
              have := (CGWF_srcs g hWF hder).2 s hs
              omega
            rw [stGet_set_ne stm m i _ (by omega), hcongr srcs hsm]
            exact p3 i srcs him hder
          · have : i = m := by omega
            subst this
            rw [hder] at hc
            injection hc with hc
            injection hc with hc
            subst hc
            have hsm : ∀ s ∈ srcs, s < i := (CGWF_srcs g hWF hder).2
            rw [stGet_set_self stm i _ (by rw [p1]; omega), hcongr srcs hsm]

end VG

namespace VG

/-- C6: for every initialized derived or merged cell with at least one
source, after any sequence of `set`/`unset` events applied to the root
cells, the cell's incrementally maintained `ready()` flag is `true` exactly
when every direct source is ready.  `ready()` reads the cached `readySet`
bit (an O(1) field read); the equivalence is maintained purely by the
readiness-change handlers installed at initialization. -/
theorem C6_readiness_iff (g : CellGraph) (hWF : CGWF g)
    (events : List (Nat × Bool)) (i : Nat) (srcs : List Nat)
    (hi : cellAt g i = some (.derived srcs)) (hne : srcs ≠ []) :
    (stGet (applyEvents g events (initState g)) i = true ↔
      ∀ s ∈ srcs, stGet (applyEvents g events (initState g)) s = true) := by
  obtain ⟨hinit_ok, hinit_len⟩ := initState_ok g hWF
  obtain ⟨hok, _⟩ := okInv_applyEvents g hWF events (initState g) hinit_len hinit_ok
  rw [hok i srcs hi]
  unfold computeReady
  rw [Bool.and_eq_true, List.all_eq_true]
  constructor
  · rintro ⟨_, h⟩ s hs
    simpa using h s hs
  · intro h
    refine ⟨?_, fun s hs => by simpa using h s hs⟩
    cases hsrcs : srcs with
    | nil => exact absurd hsrcs hne
    | cons a t => simp [hsrcs]

/-- The witness graph: two roots and one merged cell over both. -/
def c6g : CellGraph := ⟨[.root true, .root false, .derived [0, 1]]⟩

/-- C6 (witness): in `c6g`, after setting root `1` ready, the merged cell's
readiness flag agrees with the conjunction of its sources' readiness. -/
theorem C6_witness :
    CGWF c6g ∧ cellAt c6g 2 = some (.derived [0, 1]) ∧
    (stGet (applyEvents c6g [(1, true)] (initState c6g)) 2 = true ↔
      ∀ s ∈ [0, 1], stGet (applyEvents c6g [(1, true)] (initState c6g)) s = true) :=
  ⟨by decide, by decide,
    C6_readiness_iff c6g (by decide) [(1, true)] 2 [0, 1] (by decide) (by decide)⟩

end VG

namespace DV

/-!
## Derived-cell invalidation (`DerivatedVolatileBase.initialize` /
`DerivatedVolatile.current`)

The invalidation handler subscribed to every source:

```ts
const previousInvalidated = this.invalidated
this.invalidated = true
if (!previousInvalidated) this.signalInvalidation()
```

and the recompute guard of `current()`:
`if (this.invalidated && this.ready()) { ... recompute ...; this.invalidated = false }`.
-/

structure DState where
  invalidated : Bool
  ready : Bool
  emitted : Nat
  recomputes : Nat
  deriving Repr, DecidableEq

/-- One invalidation event received from a source. -/
def srcInvalidate (s : DState) : DState :=
  if s.invalidated then { s with invalidated := true }
  else { s with invalidated := true, emitted := s.emitted + 1 }

/-- `n` consecutive invalidation events. -/
def srcInvalidateN : Nat → DState → DState
  | 0, s => s
  | n + 1, s => srcInvalidateN n (srcInvalidate s)

/-- A `current()` call: recomputes (and clears the flag) only when
invalidated and ready. -/
def currentCall (s : DState) : DState :=
  if s.invalidated && s.ready then
    { s with invalidated := false, recomputes := s.recomputes + 1 }
  else s

theorem srcInvalidate_idem (s : DState) :
    srcInvalidate (srcInvalidate s) = srcInvalidate s := by
  unfold srcInvalidate
  by_cases h : s.invalidated <;> simp [h]

theorem srcInvalidateN_eq (n : Nat) (s : DState) (hn : 1 ≤ n) :
    srcInvalidateN n s = srcInvalidate s := by
  induction n with
  | zero => omega
  | succ n ih =>
    cases n with
    | zero => rfl
    | succ m =>
      show srcInvalidateN (m + 1) (srcInvalidate s) = srcInvalidate s
      rw [show srcInvalidateN (m + 1) (srcInvalidate s) =
        srcInvalidateN m (srcInvalidate (srcInvalidate s)) from rfl]
      rw [srcInvalidate_idem]
      exact ih (by omega)

/-- C7: N ≥ 1 invalidation events arriving between two `current()` calls
coalesce: at most one downstream invalidation is emitted (exactly one when
the burst starts on a freshly computed cell), marking the cell a second time
before recomputation changes nothing, and the following `current()` performs
at most one recomputation. -/
theorem C7_invalidation_coalescing (s : DState) (n : Nat) (hn : 1 ≤ n) :
    (srcInvalidateN n s).emitted ≤ s.emitted + 1 ∧
    (s.invalidated = false → (srcInvalidateN n s).emitted = s.emitted + 1) ∧
    (s.invalidated = true → srcInvalidateN n s = s) ∧
    srcInvalidate (srcInvalidate s) = srcInvalidate s ∧
    (currentCall (srcInvalidateN n s)).recomputes ≤
      (srcInvalidateN n s).recomputes + 1 := by
  rw [srcInvalidateN_eq n s hn]
  refine ⟨?_, ?_, ?_, srcInvalidate_idem s, ?_⟩
  · unfold srcInvalidate
    by_cases h : s.invalidated <;> simp [h]
  · intro h
    unfold srcInvalidate
    simp [h]
  · intro h
    obtain ⟨i, r, e, rec⟩ := s
    cases i with
    | true => simp [srcInvalidate]
    | false => simp at h
  · unfold currentCall
    by_cases h : (srcInvalidate s).invalidated && (srcInvalidate s).ready <;>
      simp [h]

/-- C7 (witness): a freshly recomputed, ready cell receiving a burst of 3
invalidations. -/
theorem C7_witness :
    (srcInvalidateN 3 ⟨false, true, 0, 0⟩).emitted ≤ 0 + 1 ∧
    (srcInvalidateN 3 ⟨false, true, 0, 0⟩).emitted = 0 + 1 ∧
    (currentCall (srcInvalidateN 3 ⟨false, true, 0, 0⟩)).recomputes ≤
      (srcInvalidateN 3 ⟨false, true, 0, 0⟩).recomputes + 1 := by
  have h := C7_invalidation_coalescing ⟨false, true, 0, 0⟩ 3 (by decide)
  exact ⟨h.1, h.2.1 rfl, h.2.2.2.2⟩

/-!
## Value access (`get`, `Volatile.ts` lines 413-424)
-/

/-- A cached cell value: a raw value or a resource handle wrapping a
resource. -/
inductive GVal where
  | raw (v : Nat)
  | hnd (id : Nat) (res : Nat)
  deriving Repr, DecidableEq

/-- What a cell looks like to `get`: its readiness and its current value. -/
structure CellView where
  ready : Bool
  cur : GVal
  deriving Repr, DecidableEq

/-- `get`'s argument: a plain (non-volatile) value or a cell. -/
inductive PotentialV where
  | plain (v : Nat)
  | cell (c : CellView)
  deriving Repr, DecidableEq

def unwrap : GVal → Nat
  | .raw v => v
  | .hnd _ res => res

/-- The `get` helper: plain values pass through; a not-ready cell yields the
supplied fallback or throws; a ready cell yields its current value, unwrapped
from its resource handle when it is one. -/
def getV : PotentialV → Option Nat → Except String Nat
  | .plain v, _ => .ok v
  | .cell c, dflt =>
    if !c.ready then
      match dflt with
      | some d => .ok d
      | none => .error "Attempted to access a non-ready volatile"
    else .ok (unwrap c.cur)

/-- C9: reading a not-ready cell throws without a fallback and returns the
fallback with one; reading a ready cell returns the current value, unwrapped
from its resource handle if it is one; non-volatile values pass through. -/
theorem C9_not_ready_access (c : CellView) (d v res hid : Nat) :
    (c.ready = false →
      getV (.cell c) none = .error "Attempted to access a non-ready volatile") ∧
    (c.ready = false → getV (.cell c) (some d) = .ok d) ∧
    (c.ready = true → ∀ dflt, getV (.cell c) dflt = .ok (unwrap c.cur)) ∧
    (c.ready = true → c.cur = .hnd hid res → getV (.cell c) none = .ok res) ∧
    getV (.plain v) (some d) = .ok v := by
  refine ⟨?_, ?_, ?_, ?_, rfl⟩
  · intro h
    simp [getV, h]
  · intro h
    simp [getV, h]
  · intro h dflt
    simp [getV, h]
  · intro h hc
    simp [getV, h, hc, unwrap]

/-- C9 (witness): the theorem at a not-ready and a ready cell. -/
theorem C9_witness :
    getV (.cell ⟨false, .raw 7⟩) none =
      .error "Attempted to access a non-ready volatile" ∧
    getV (.cell ⟨false, .raw 7⟩) (some 9) = .ok 9 ∧
    getV (.cell ⟨true, .hnd 4 42⟩) none = .ok 42 := by
  have h := C9_not_ready_access ⟨false, .raw 7⟩ 9 0 0 0
  have h2 := C9_not_ready_access ⟨true, .hnd 4 42⟩ 9 0 42 4
  exact ⟨h.1 rfl, h.2.1 rfl, h2.2.2.2.1 rfl rfl⟩

end DV

namespace RM

/-!
## Resource handle swap in `RootVolatile.set` and `DerivatedVolatile.current`

The heap maps handle identities to their `ResourceHandle` state (refcount
and dispose count, reusing the `RH` model).  A cell value is the not-ready
sentinel, a plain value, or a resource handle.
-/

def Heap : Type := Nat → RH.HandleState

inductive Value where
  | undef
  | plain (v : Nat)
  | handle (id : Nat)
  deriving Repr, DecidableEq

/-- `attach()` on handle `i` of the heap. -/
def attachH (heap : Heap) (i : Nat) : Heap :=
  fun j => if j = i then RH.hstep (heap i) .attach else heap j

/-- `detach()` on handle `i` of the heap (disposing at refcount zero). -/
def detachH (heap : Heap) (i : Nat) : Heap :=
  fun j => if j = i then RH.hstep (heap i) .detach else heap j

/-- `RootVolatile.set` (resource bookkeeping): detach the previous value's
handle, store the new value, then attach the new value's handle — in that
order. -/
def rootSet (heap : Heap) (cell : Value) (v : Value) : Heap × Value :=
  let heap1 := match cell with
    | .handle h => detachH heap h
    | _ => heap
  let heap2 := match v with
    | .handle h => attachH heap1 h
    | _ => heap1
  (heap2, v)

/-- `DerivatedVolatile.current` at the recompute point (`invalidated` and
ready): detach the cached value's handle, cache the freshly computed value,
attach its handle. -/
def derivedRecompute (heap : Heap) (cached : Value) (newValue : Value) :
    Heap × Value :=
  let heap1 := match cached with
    | .handle h => detachH heap h
    | _ => heap
  let heap2 := match newValue with
    | .handle h => attachH heap1 h
    | _ => heap1
  (heap2, newValue)

/-- C10: both `set` on a root cell and the recompute in `current()` detach
the previously held handle before attaching the new one; consequently,
replacing a handle of refcount 1 by itself fires its dispose callback and
leaves the cell holding the now-disposed handle at refcount 1. -/
theorem C10_detach_before_attach (heap : Heap) (h : Nat)
    (hcnt : (heap h).counter = 1) (hdisp : (heap h).disposed = 0) :
    ((rootSet heap (.handle h) (.handle h)).1 h).disposed = 1 ∧
    ((rootSet heap (.handle h) (.handle h)).1 h).counter = 1 ∧
    (rootSet heap (.handle h) (.handle h)).2 = .handle h ∧
    ((derivedRecompute heap (.handle h) (.handle h)).1 h).disposed = 1 ∧
    ((derivedRecompute heap (.handle h) (.handle h)).1 h).counter = 1 := by
  have hdet : detachH heap h h = { counter := 0, disposed := (heap h).disposed + 1 } := by
    unfold detachH
    rw [if_pos rfl]
    unfold RH.hstep
    rw [hcnt]
    norm_num
  have hatt : ∀ hp : Heap, attachH hp h h =
      { hp h with counter := (hp h).counter + 1 } := by
    intro hp
    unfold attachH
    rw [if_pos rfl]
    rfl
  have hroot : (rootSet heap (.handle h) (.handle h)).1 h =
      { counter := 1, disposed := (heap h).disposed + 1 } := by
    show attachH (detachH heap h) h h = _
    rw [hatt (detachH heap h), hdet]
    simp
  have hder : (derivedRecompute heap (.handle h) (.handle h)).1 h =
      { counter := 1, disposed := (heap h).disposed + 1 } := by
    show attachH (detachH heap h) h h = _
    rw [hatt (detachH heap h), hdet]
    simp
  rw [hroot, hder, hdisp]
  exact ⟨rfl, rfl, rfl, rfl, rfl⟩

/-- C10 (witness): the theorem at the one-handle heap with refcount 1. -/
theorem C10_witness :
    ((rootSet (fun _ => ⟨1, 0⟩) (.handle 0) (.handle 0)).1 0).disposed = 1 ∧
    ((rootSet (fun _ => ⟨1, 0⟩) (.handle 0) (.handle 0)).1 0).counter = 1 := by
  have hw := C10_detach_before_attach (fun _ => ⟨1, 0⟩) 0 rfl rfl
  exact ⟨hw.1, hw.2.1⟩

end RM

namespace RS

/-!
## Renderer registration and cached resolution order
(`components/rendering/Renderer.tsx`)

Reactive cells are registered in a `PartiallyOrderedSet` registry together
with a per-cell reference counter; `registerVolatile` recursively registers
a cell's auxiliaries and orders each auxiliary before the cell;
`unregisterVolatile` recursively unregisters auxiliaries and deletes the
cell from the registry when its counter drops from 1 (leaving the counter
entry behind, as the original does).  `registerComponentVolatile` clears the
memoized sorted order (`sortedVolatiles.current = null`); the unregister
closure it returns does *not*.  `resolveComponentVolatiles` recomputes the
sorted order only when the memo is empty and then resolves the cells in the
memoized order (we record the order used).  Cells are identified by `Nat`;
`aux` gives each cell's auxiliary set and `fuel` bounds the auxiliary
recursion depth (auxiliary chains are finite).
-/

structure RState where
  registry : PO.POS
  counters : Nat → Option Nat
  cache : Option (List Nat)

def cupdN (f : Nat → Option Nat) (k : Nat) (v : Nat) : Nat → Option Nat :=
  fun x => if x = k then some v else f x

def registerVolatileF (aux : Nat → List Nat) :
    Nat → PO.POS × (Nat → Option Nat) → Nat → PO.POS × (Nat → Option Nat)
  | 0, p, _ => p
  | fuel + 1, p, v =>
    let reg1 := PO.add p.1 v
    let cnt1 := cupdN p.2 v ((p.2 v).getD 0 + 1)
    (aux v).foldl
      (fun (q : PO.POS × (Nat → Option Nat)) a =>
        let q1 := registerVolatileF aux fuel q a
        (((PO.order q1.1 a v).getD (false, q1.1)).2, q1.2))
      (reg1, cnt1)

def unregisterVolatileF (aux : Nat → List Nat) :
    Nat → PO.POS × (Nat → Option Nat) → Nat → PO.POS × (Nat → Option Nat)
  | 0, p, _ => p
  | fuel + 1, p, v =>
    let q := (aux v).foldl (fun q a => unregisterVolatileF aux fuel q a) p
    match q.2 v with
    | some 1 => (PO.delete q.1 v, q.2)
    | some c => (q.1, cupdN q.2 v (c - 1))
    | none => q

/-- `registerComponentVolatile`: register, then invalidate the memoized
order. -/
def registerComponent (aux : Nat → List Nat) (fuel : Nat) (st : RState)
    (v : Nat) : RState :=
  let p := registerVolatileF aux fuel (st.registry, st.counters) v
  { registry := p.1, counters := p.2, cache := none }

/-- The unregister closure returned by `registerComponentVolatile`: it only
unregisters — the memoized order is left untouched. -/
def unregisterComponent (aux : Nat → List Nat) (fuel : Nat) (st : RState)
    (v : Nat) : RState :=
  let p := unregisterVolatileF aux fuel (st.registry, st.counters) v
  { registry := p.1, counters := p.2, cache := st.cache }

/-- `resolveComponentVolatiles` (memoization part): recompute the sorted
order only when the memo is `null`, then resolve the cells in the memoized
order; returns the new state and the order actually used. -/
def resolve (st : RState) : RState × List Nat :=
  let used := match st.cache with
    | none => PO.sortedValues st.registry
    | some l => l
  ({ st with cache := some used }, used)

def c8aux : Nat → List Nat := fun _ => []

def c8s0 : RState :=
  { registry := PO.empty, counters := fun _ => none, cache := none }

def c8s2 : RState := registerComponent c8aux 2 (registerComponent c8aux 2 c8s0 1) 2

def c8s3 : RState := (resolve c8s2).1

def c8s4 : RState := unregisterComponent c8aux 2 c8s3 2

/-- C8: at the failing input — register cells 1 and 2, run a resolution
pass (memoizing the order `[1, 2]`), then unregister cell 2 — the next
resolution pass still uses the stale memo `[1, 2]`, which names the
unregistered cell 2, while a fresh recomputation from the current registry
yields `[1]`: unregistering a reactive cell does not invalidate the
scheduler's cached sorted order, contradicting the claim that the memoized
order always equals a fresh recomputation when used.  (Render-step
registration and unregistration, and cell registration, all do refresh the
order.) -/
theorem C8_stale_cache_after_unregister :
    (resolve c8s2).2 = [1, 2] ∧
    PO.hasKey c8s4.registry 2 = false ∧
    c8s4.cache = some [1, 2] ∧
    (resolve c8s4).2 = [1, 2] ∧
    PO.sortedValues c8s4.registry = [1] := by
  refine ⟨by decide, by decide, by decide, by decide, by decide⟩

end RS
